import Mathlib

set_option maxRecDepth 10000

/-!
Verification of the diff-to-method attribution engine of
`framework/util/generate_ground_truth.py`.

The Python code works on text; we embed a line of text as a list of
character codes (`Line := List Nat`, ASCII) and a file as its list of
lines (the Python code reads a file and splits its content on newlines).
Each Lean definition below mirrors one Python helper or loop of the
source file; names follow the source where possible.
-/

abbrev Line := List Nat

/-- Build a line of character codes from a string literal (ASCII data only). -/
def S (s : String) : Line := s.data.map Char.toNat

/-- Python `str.isspace` on a single ASCII character code. -/
def isSpaceCh (c : Nat) : Bool := c = 32 || c = 9 || c = 10 || c = 13 || c = 11 || c = 12

/-- Python `str.lstrip()`. -/
def lstrip (l : Line) : Line := l.dropWhile isSpaceCh

/-- Python `str.rstrip()`. -/
def rstrip (l : Line) : Line := (l.reverse.dropWhile isSpaceCh).reverse

/-- Python `str.strip()`. -/
def strip (l : Line) : Line := rstrip (lstrip l)

/-- Python `str.rstrip(c)` for a single character. -/
def rstripCh (c : Nat) (l : Line) : Line := (l.reverse.dropWhile (fun x => x = c)).reverse

/-- Python `str.count(c)` for a single character. -/
def countCh (c : Nat) (l : Line) : Nat := (l.filter (fun x => x = c)).length

/-- Python `c in s` for a single character. -/
def containsCh (c : Nat) (l : Line) : Bool := l.any (fun x => x = c)

/-- Python `s.split(c)[0]`: the prefix before the first occurrence of `c`. -/
def takeUntil (c : Nat) (l : Line) : Line := l.takeWhile (fun x => x ≠ c)

/-- Python `str.startswith(p)`. -/
def startsWithL : Line → Line → Bool
  | [], _ => true
  | _ :: _, [] => false
  | p :: ps, x :: xs => p = x && startsWithL ps xs

/-- Python `str.endswith(p)`. -/
def endsWithL (p l : Line) : Bool := startsWithL p.reverse l.reverse

/-- Helper for `findSub`: first index at or after the current position where
`needle` occurs. -/
def findSubAux (needle : Line) : Line → Nat → Option Nat
  | [], i => if startsWithL needle [] then some i else none
  | x :: xs, i => if startsWithL needle (x :: xs) then some i else findSubAux needle xs (i + 1)

/-- Python `hay.find(needle)` restricted to found results (`none` for -1). -/
def findSub (needle hay : Line) : Option Nat := findSubAux needle hay 0

/-- Python `needle in hay` substring containment. -/
def containsSub (needle hay : Line) : Bool := (findSub needle hay).isSome

/-- Python `hay.index(c, start)` for a single character, as an `Option`. -/
def indexOfChFrom (c start : Nat) (l : Line) : Option Nat :=
  (findSub [c] (l.drop start)).map (fun k => start + k)

/-- Python `hay.index(c)` for a single character, as an `Option`. -/
def indexOfCh (c : Nat) (l : Line) : Option Nat := indexOfChFrom c 0 l

/-- Python sliceL `l[a:b]` for natural bounds. -/
def sliceL (a b : Nat) (l : Line) : Line := (l.drop a).take (b - a)

/-- Python `str.split(c)` for a single separator character (keeps empties). -/
def splitOnCh (c : Nat) : Line → List Line
  | [] => [[]]
  | x :: xs =>
    let r := splitOnCh c xs
    if x = c then [] :: r
    else
      match r with
      | [] => [[x]]
      | h :: t => (x :: h) :: t

/-- Helper for `splitWs`, carrying the current (reversed) token. -/
def splitWsAux : Line → Line → List Line
  | [], acc => if acc.isEmpty then [] else [acc.reverse]
  | x :: xs, acc =>
    if isSpaceCh x then
      if acc.isEmpty then splitWsAux xs [] else acc.reverse :: splitWsAux xs []
    else splitWsAux xs (x :: acc)

/-- Python `str.split()` (split on whitespace, dropping empty tokens). -/
def splitWs (l : Line) : List Line := splitWsAux l []

/-- Python `param_type.split(chr(46))[-1]`: keep the last dot-separated segment. -/
def lastDotSeg (l : Line) : Line := (splitOnCh 46 l).getLastD []

/-- Helper for `stripGenerics`, with a structural fuel bound (one unit per
consumed character suffices, since every step drops at least one character). -/
def stripGenericsAux : Nat → Line → Line
  | 0, l => l
  | _ + 1, [] => []
  | fuel + 1, c :: rest =>
    let run := rest.takeWhile (fun x => x ≠ 62)
    if c = 60 ∧ ¬ run.isEmpty ∧ run.length < rest.length then
      stripGenericsAux fuel (rest.drop (run.length + 1))
    else c :: stripGenericsAux fuel rest

/-- Python `re.sub("<[^>]+>", "", s)`: delete every maximal `<...>` group with a
nonempty `>`-free interior, scanning left to right. -/
def stripGenerics (l : Line) : Line := stripGenericsAux l.length l

/-- Python `str.isupper()` on a single character code (ASCII). -/
def isUpperCh (c : Nat) : Bool := decide (65 ≤ c ∧ c ≤ 90)

/-- Control-flow keywords excluded as method names (source line 176). -/
def controlKeywords : List Line :=
  [S "if", S "while", S "for", S "switch", S "catch", S "try",
   S "synchronized", S "return", S "new"]

/-- Modifier keywords that make a line look like a declaration (source line 179). -/
def modKeywords : List Line :=
  [S "public", S "private", S "protected", S "void", S "static"]

/-- Source lines 187-189: join forward lines until a closing parenthesis is in
the joined declaration or the scan reaches the last line; the first argument is
the list of lines after index `tempI`, so the loop guard `temp_i < len - 1`
becomes nonemptiness of that suffix. Returns the joined text together with the
last index consumed. -/
def joinDeclAux : List Line → Line → Nat → Line × Nat
  | [], fullDecl, tempI => (fullDecl, tempI)
  | l :: rest, fullDecl, tempI =>
    if containsCh 41 fullDecl then (fullDecl, tempI)
    else joinDeclAux rest (fullDecl ++ 32 :: strip l) (tempI + 1)

/-- Source lines 183-189: the multi-line declaration join starting at line `i`. -/
def joinDecl (lines : List Line) (stripped : Line) (i : Nat) : Line × Nat :=
  joinDeclAux (lines.drop (i + 1)) stripped i

/-- Result of recognising a candidate declaration: method name and the
normalized comma-joined parameter types. -/
structure DeclInfo where
  name : Line
  params : Line
deriving DecidableEq, Repr

/-- Source lines 208-223: turn one raw parameter into its simplified type
name, skipping empty entries. -/
def paramTypeOf (param : Line) : Option Line :=
  let p := strip param
  if p.isEmpty then none
  else
    let q := stripGenerics p
    let parts := splitWs q
    if parts.length ≥ 2 then some (lastDotSeg (parts.getD (parts.length - 2) []))
    else if parts.length = 1 then some (lastDotSeg (parts.getD 0 []))
    else none

/-- Source line 225: comma-join the simplified parameter types. -/
def buildParams (paramsRaw : Line) : Line :=
  List.intercalate [44] ((splitOnCh 44 paramsRaw).filterMap paramTypeOf)

/-- Source lines 168-227 of `find_method_at_line`: decide whether line `i`
starts a confirmed method/constructor declaration, returning its name and
normalized parameters. -/
def detectDecl (lines : List Line) (i : Nat) : Option DeclInfo :=
  let stripped := strip (lines.getD i [])
  if containsCh 40 stripped && ! startsWithL (S "//") stripped
      && ! startsWithL (S "*") stripped then
    let beforeParen := strip (takeUntil 40 stripped)
    let tokens := splitWs beforeParen
    match tokens.getLast? with
    | none => none
    | some potentialName =>
      if controlKeywords.contains potentialName then none
      else if modKeywords.any (fun m => containsSub m stripped)
          || (decide (tokens.length ≥ 2) && ! isUpperCh (potentialName.getD 0 0)) then
        let fd := joinDecl lines stripped i
        match indexOfCh 40 fd.1 with
        | none => none
        | some parenStart =>
          match indexOfChFrom 41 parenStart fd.1 with
          | none => none
          | some parenEnd =>
            let paramsRaw := sliceL (parenStart + 1) parenEnd fd.1
            let hasBrace := containsCh 123 fd.1 ||
              (List.range' i (min (fd.2 + 3) lines.length - i)).any
                (fun j => containsCh 123 (lines.getD j []))
            let isCall :=
              if containsCh 123 fd.1 then
                containsCh 61 (takeUntil 40 fd.1) || containsCh 59 (takeUntil 123 fd.1)
              else containsCh 59 fd.1
            if hasBrace && ! isCall then some ⟨potentialName, buildParams paramsRaw⟩
            else none
      else none
  else none

/-- Stack frame pushed for a confirmed declaration (source lines 231-236). -/
structure MethodFrame where
  name : Line
  signature : Line
  start_line : Nat
  brace_depth_at_start : Int
deriving DecidableEq, Repr

/-- Result of `find_method_at_line`: the Python dict, whose `end_line` key is
present only on the popped-span return path. -/
structure MethodResult where
  name : Line
  signature : Line
  start_line : Nat
  end_line : Option Nat
deriving DecidableEq, Repr

/-- Outcome of the pop loop at source lines 242-247: either an early return
with a completed span, or the remaining stack. -/
inductive PopOut where
  | found (r : MethodResult)
  | stack (s : List MethodFrame)
deriving DecidableEq, Repr

/-- Source lines 242-247: pop frames whose recorded depth is no longer open;
return the first popped span containing the target line. The stack keeps its
top at the head. -/
def popLoop (braceDepth : Int) (target lineNum : Nat) : List MethodFrame → PopOut
  | [] => .stack []
  | f :: rest =>
    if braceDepth < f.brace_depth_at_start then
      if f.start_line ≤ target ∧ target ≤ lineNum then
        .found ⟨f.name, f.signature, f.start_line, some lineNum⟩
      else popLoop braceDepth target lineNum rest
    else .stack (f :: rest)

/-- Source lines 255-259: after the scan, return the first frame (from the
bottom of the stack) whose start line does not exceed the target. -/
def scanLeftover (target : Nat) (stack : List MethodFrame) : Option MethodResult :=
  match stack.reverse.find? (fun f => decide (f.start_line ≤ target)) with
  | some f => some ⟨f.name, f.signature, f.start_line, none⟩
  | none => none

/-- Outcome of one iteration of the scan loop: an early return with a result,
or the updated brace depth and stack. -/
inductive ScanStep where
  | ret (r : MethodResult)
  | cont (braceDepth : Int) (stack : List MethodFrame)
deriving DecidableEq, Repr

/-- Source lines 242-251: after the brace-depth update, pop closed frames
(early-returning a popped span containing the target), and early-return the
top frame when the target line is reached with a nonempty stack. -/
def scanResolve (newDepth : Int) (target lineNum : Nat)
    (stack1 : List MethodFrame) : ScanStep :=
  match popLoop newDepth target lineNum stack1 with
  | .found r => .ret r
  | .stack stack2 =>
    match stack2 with
    | [] => .cont newDepth []
    | f :: s2 =>
      if lineNum = target then .ret ⟨f.name, f.signature, f.start_line, none⟩
      else .cont newDepth (f :: s2)

/-- Source lines 150-251: the body of one iteration of the scan loop, for the
line at index `i` (line number `i + 1`). Pushes a frame for a confirmed
declaration, updates the brace depth, then resolves pops and the
target-reached early return. -/
def scanStep (lines : List Line) (target : Nat) (line : Line) (i : Nat)
    (braceDepth : Int) (stack : List MethodFrame) : ScanStep :=
  let lineNum := i + 1
  let openBr := countCh 123 line
  let closeBr := countCh 125 line
  let stack1 :=
    match detectDecl lines i with
    | some d =>
      (⟨d.name, d.name ++ 40 :: (d.params ++ [41]), lineNum,
        braceDepth + (openBr : Int)⟩ : MethodFrame) :: stack
    | none => stack
  let newDepth := braceDepth + (openBr : Int) - (closeBr : Int)
  scanResolve newDepth target lineNum stack1

/-- Source lines 148-253: the main scan loop of `find_method_at_line`. The
first list argument is the remaining suffix of `lines` starting at index `i`;
the stack keeps its top at the head. -/
def scanLoopAux (lines : List Line) (target : Nat) :
    List Line → Nat → Int → List MethodFrame → Option MethodResult
  | [], _, _, stack => scanLeftover target stack
  | line :: rest, i, braceDepth, stack =>
    match scanStep lines target line i braceDepth stack with
    | .ret r => some r
    | .cont newDepth stack2 => scanLoopAux lines target rest (i + 1) newDepth stack2

/-- Source lines 134-261: find the method containing a target line. -/
def find_method_at_line (lines : List Line) (target : Nat) : Option MethodResult :=
  scanLoopAux lines target lines 0 0 []

/-- Cumulative brace depth after the first `k` lines: the running count of
opening minus closing braces that the scan maintains (source lines 154-155
and 239). -/
def braceDelta (lines : List Line) (k : Nat) : Int :=
  (((lines.take k).map
    (fun l => (countCh 123 l : Int) - (countCh 125 l : Int))).sum)

/-- Result of `find_method_by_signature` (source lines 397-400). -/
structure SigMatch where
  name : Line
  start_line : Nat
deriving DecidableEq, Repr

/-- Source lines 342-343: the expected parameter count computed from a
signature of the form `Name(Type1,Type2,...)`. -/
def sigParamCount (signature : Line) : Nat :=
  if containsCh 40 signature then
    ((splitOnCh 44 (rstripCh 41 ((splitOnCh 40 signature).getD 1 []))).filter
      (fun p => ! (strip p).isEmpty)).length
  else 0

/-- Modifier keywords used by the signature matcher (source line 368). -/
def sigModKeywords : List Line :=
  [S "public", S "private", S "protected", S "static", S "final",
   S "synchronized", S "abstract"]

/-- Source lines 378-382: join forward lines until a closing parenthesis is
seen, up to ten lines ahead; the first argument is the list of remaining
joinable lines (at most `min (i + 10) len - (i + 1)` of them). -/
def joinSigAux : List Line → Line → Line
  | [], combined => combined
  | l :: rest, combined =>
    if containsCh 41 combined then combined
    else joinSigAux rest (combined ++ 32 :: strip l)

/-- Source lines 378-382: the forward join for the declaration at line `i`. -/
def joinSig (lines : List Line) (stripped : Line) (i : Nat) : Line :=
  joinSigAux ((lines.drop (i + 1)).take (min (i + 10) lines.length - (i + 1))) stripped

/-- Source lines 384-393: extract the parameter count of the candidate
declaration at line index `i`, as the code does inside its `try` block. -/
def extractCount (lines : List Line) (i : Nat) (methodName : Line) : Option Nat :=
  let stripped := strip (lines.getD i [])
  let combined := joinSig lines stripped i
  match findSub methodName combined with
  | none => none
  | some idx =>
    match indexOfChFrom 40 (idx + methodName.length) combined with
    | none => none
    | some ps =>
      match indexOfChFrom 41 ps combined with
      | none => none
      | some pe =>
        some ((splitOnCh 44 (sliceL (ps + 1) pe combined)).filter
          (fun p => ! (strip p).isEmpty)).length

/-- Source lines 363-374: is the (stripped) line a declaration candidate for
`methodName`? -/
def isSigDeclCandidate (stripped methodName : Line) : Bool :=
  if containsSub (methodName ++ [40]) stripped
      || containsSub (methodName ++ [32, 40]) stripped then
    match findSub methodName stripped with
    | none => false
    | some beforeIdx =>
      let before := strip (sliceL 0 beforeIdx stripped)
      if sigModKeywords.any (fun m => containsSub m before) then true
      else if before.isEmpty || (endsWithL [32] before && ! endsWithL [46] before) then
        let afterName := stripped.drop (beforeIdx + methodName.length)
        if startsWithL [40] afterName then
          ! endsWithL [46] (rstrip before) && ! endsWithL [61] (rstrip before)
        else false
      else false
  else false

/-- Source lines 347-402: the scan loop of `find_method_by_signature`. The
first list argument is the remaining suffix of `lines` starting at index `i`;
`inComment` is the block-comment flag. -/
def sigScanAux (lines : List Line) (methodName : Line) (sigCount : Nat) :
    List Line → Nat → Bool → Option SigMatch
  | [], _, _ => none
  | line :: rest, i, inComment =>
    let stripped := strip line
    if containsSub (S "/*") stripped && ! containsSub (S "*/") stripped then
      sigScanAux lines methodName sigCount rest (i + 1) true
    else if containsSub (S "*/") stripped then
      sigScanAux lines methodName sigCount rest (i + 1) false
    else if inComment || startsWithL (S "//") stripped || startsWithL (S "*") stripped then
      sigScanAux lines methodName sigCount rest (i + 1) inComment
    else if isSigDeclCandidate stripped methodName then
      match extractCount lines i methodName with
      | some c =>
        if c = sigCount then some ⟨methodName, i + 1⟩
        else sigScanAux lines methodName sigCount rest (i + 1) inComment
      | none => sigScanAux lines methodName sigCount rest (i + 1) inComment
    else sigScanAux lines methodName sigCount rest (i + 1) inComment

/-- Source lines 332-404: find a method by name and parameter arity. -/
def find_method_by_signature (lines : List Line) (methodName signature : Line) :
    Option SigMatch :=
  sigScanAux lines methodName (sigParamCount signature) lines 0 false

/-- State of the diff parse at source lines 459-480: recorded changed lines
per side (in encounter order) and the two cursors. -/
structure DiffState where
  buggy : List Nat
  fixed : List Nat
  curBuggy : Nat
  curFixed : Nat
deriving DecidableEq, Repr

/-- Parse a nonempty digit run; returns its value and the rest. -/
def parseDigitsAux : Line → Nat → Nat × Line
  | [], acc => (acc, [])
  | c :: rest, acc =>
    if 48 ≤ c ∧ c ≤ 57 then parseDigitsAux rest (acc * 10 + (c - 48))
    else (acc, c :: rest)

/-- Parse `\d+` at the head of the line. -/
def parseDigits : Line → Option (Nat × Line)
  | [] => none
  | c :: rest =>
    if 48 ≤ c ∧ c ≤ 57 then some (parseDigitsAux rest (c - 48)) else none

/-- Drop an exact literal prefix, failing otherwise. -/
def dropLit (p l : Line) : Option Line :=
  if startsWithL p l then some (l.drop p.length) else none

/-- Consume the optional `,\d+` count group of a hunk header. -/
def parseOptCount (l : Line) : Line :=
  match l with
  | c :: rest =>
    if c = 44 then
      match parseDigits rest with
      | some pr => pr.2
      | none => c :: rest
    else c :: rest
  | [] => []

/-- Source line 468: the regex `@@ -(\d+)(?:,(\d+))? \+(\d+)(?:,(\d+))? @@`
matched against the start of the line, returning the two start fields. -/
def parseHunkHeader (l : Line) : Option (Nat × Nat) := do
  let r1 ← dropLit (S "@@ -") l
  let (b, r2) ← parseDigits r1
  let r3 := parseOptCount r2
  let r4 ← dropLit (S " +") r3
  let (f, r5) ← parseDigits r4
  let r6 := parseOptCount r5
  let _ ← dropLit (S " @@") r6
  some (b, f)

/-- Source lines 465-480: process one line of the diff body. -/
def diffStep (s : DiffState) (line : Line) : DiffState :=
  if startsWithL (S "@@") line then
    match parseHunkHeader line with
    | some bf => { s with curBuggy := bf.1, curFixed := bf.2 }
    | none => s
  else if startsWithL (S "-") line && ! startsWithL (S "---") line then
    { s with buggy := s.buggy ++ [s.curBuggy], curBuggy := s.curBuggy + 1 }
  else if startsWithL (S "+") line && ! startsWithL (S "+++") line then
    { s with fixed := s.fixed ++ [s.curFixed], curFixed := s.curFixed + 1 }
  else if ! startsWithL (S "\\") line then
    { s with curBuggy := s.curBuggy + 1, curFixed := s.curFixed + 1 }
  else s

/-- Source lines 459-480: parse the whole diff text into the two changed-line
sets and final cursors. -/
def parseDiff (dlines : List Line) : DiffState :=
  dlines.foldl diffStep ⟨[], [], 0, 0⟩

/-- Source lines 490-497: one attribution record (the Python dict). The Python
`class` key is spelled `cls`. -/
structure MethodRecord where
  file : Line
  cls : Line
  method : Line
  method_name : Line
  line_start_buggy : Option Nat
  line_start_fixed : Option Nat
deriving DecidableEq, Repr

/-- Dictionary lookup in `methods_found`, modelled as an insertion-ordered
association list with unique keys. -/
def mfLookup : List (Line × MethodRecord) → Line → Option MethodRecord
  | [], _ => none
  | p :: rest, k => if p.1 = k then some p.2 else mfLookup rest k

/-- In-place mutation of the record stored under key `k`. -/
def mfUpdate (k : Line) (g : MethodRecord → MethodRecord) :
    List (Line × MethodRecord) → List (Line × MethodRecord)
  | [] => []
  | p :: rest => if p.1 = k then (p.1, g p.2) :: rest else p :: mfUpdate k g rest

/-- Source lines 499-500: set `line_start_fixed` only if it is still missing. -/
def setFixedIfNone (v : Nat) (r : MethodRecord) : MethodRecord :=
  if r.line_start_fixed.isNone then { r with line_start_fixed := some v } else r

/-- Source lines 518-519: set `line_start_buggy` only if it is still missing. -/
def setBuggyIfNone (v : Nat) (r : MethodRecord) : MethodRecord :=
  if r.line_start_buggy.isNone then { r with line_start_buggy := some v } else r

/-- Source lines 485-500: process one changed line of the fixed file. -/
def stepFixed (fileP cls : Line) (fixedFile : List Line)
    (m : List (Line × MethodRecord)) (lineNum : Nat) : List (Line × MethodRecord) :=
  match find_method_at_line fixedFile lineNum with
  | none => m
  | some mi =>
    let k := mi.signature
    let m1 :=
      if (mfLookup m k).isNone then
        m ++ [(k, ⟨fileP, cls, mi.signature, mi.name, none, some mi.start_line⟩)]
      else m
    mfUpdate k (setFixedIfNone mi.start_line) m1

/-- Source lines 502-519: process one changed line of the buggy file. -/
def stepBuggy (fileP cls : Line) (buggyFile : List Line)
    (m : List (Line × MethodRecord)) (lineNum : Nat) : List (Line × MethodRecord) :=
  match find_method_at_line buggyFile lineNum with
  | none => m
  | some mi =>
    let k := mi.signature
    if (mfLookup m k).isNone then
      m ++ [(k, ⟨fileP, cls, mi.signature, mi.name, some mi.start_line, none⟩)]
    else mfUpdate k (setBuggyIfNone mi.start_line) m

/-- Source lines 523-527: backfill `line_start_buggy` from the buggy file when
it is still missing. -/
def backfillBuggy (buggyFile : List Line) (r : MethodRecord) : MethodRecord :=
  if r.line_start_buggy.isNone then
    match find_method_by_signature buggyFile r.method_name r.method with
    | some b => { r with line_start_buggy := some b.start_line }
    | none => r
  else r

/-- Source lines 528-532: backfill `line_start_fixed` from the fixed file when
it is still missing. -/
def backfillFixed (fixedFile : List Line) (r : MethodRecord) : MethodRecord :=
  if r.line_start_fixed.isNone then
    match find_method_by_signature fixedFile r.method_name r.method with
    | some b => { r with line_start_fixed := some b.start_line }
    | none => r
  else r

/-- Source lines 521-532: backfill a record whose side is still missing by
searching that side with the signature matcher. -/
def backfill (buggyFile fixedFile : List Line) (p : Line × MethodRecord) :
    Line × MethodRecord :=
  (p.1, backfillFixed fixedFile (backfillBuggy buggyFile p.2))

/-- Insert a line number into an ascending duplicate-free list. -/
def insertSorted (n : Nat) : List Nat → List Nat
  | [] => [n]
  | x :: xs =>
    if n < x then n :: x :: xs
    else if n = x then x :: xs
    else x :: insertSorted n xs

/-- The Python `set` of recorded line numbers, iterated in ascending order
(CPython iterates small-integer sets in ascending order). -/
def toSortedSet (l : List Nat) : List Nat := l.foldr insertSorted []

/-- Source lines 452-536: the per-file-pair core of `extract_modified_methods`.
The external `diff -U3` output is handed in as `diffOutput` (the raw text);
the two files are handed in as their line lists. Returns the emitted records
in dictionary order. -/
def extract_modified_methods (diffOutput : Line) (buggyFile fixedFile : List Line)
    (fileP cls : Line) : List MethodRecord :=
  if diffOutput.isEmpty then []
  else
    let st := parseDiff (splitOnCh 10 diffOutput)
    let changedFixed := toSortedSet st.fixed
    let changedBuggy := toSortedSet st.buggy
    let m0 := changedFixed.foldl (stepFixed fileP cls fixedFile) []
    let m1 := changedBuggy.foldl (stepBuggy fileP cls buggyFile) m0
    let m2 := m1.map (backfill buggyFile fixedFile)
    m2.map (fun p => p.2)

/-- The start line of the method located at the first line number (in the given
iteration order) that resolves to signature `k`. -/
def firstResolvedStart (file : List Line) (lineNums : List Nat) (k : Line) : Option Nat :=
  lineNums.findSome? (fun ln =>
    match find_method_at_line file ln with
    | some mi => if mi.signature = k then some mi.start_line else none
    | none => none)

/-- Invariant of `methods_found`: keys are unique and every record carries its
own key in its `method` field. -/
def mfInv (m : List (Line × MethodRecord)) : Prop :=
  (m.map Prod.fst).Nodup ∧ ∀ p ∈ m, p.2.method = p.1

/-- Synthetic file for the containment property: a single method `bar`
spanning lines 10-20 inside a class body, 21 lines total. -/
def file1 : List Line :=
  [S "public class A \x7b",
   S "// c", S "// c", S "// c", S "// c", S "// c", S "// c", S "// c", S "// c",
   S "public void bar() \x7b",
   S "int a;", S "int b;", S "int c;", S "int d;", S "int e;",
   S "int f;", S "int g;", S "int h;", S "int k;",
   S "\x7d",
   S "\x7d"]

/-- Synthetic file for the nesting tie-break: `inner` spans lines 12-15
inside `outer`, which spans lines 5-25. -/
def fileC2 : List Line :=
  [S "public class C \x7b", S "// f", S "// f", S "// f",
   S "public void outer() \x7b",
   S "int a;", S "int a;", S "int a;", S "int a;", S "int a;", S "int a;",
   S "public void inner() \x7b", S "int x;", S "int y;", S "\x7d",
   S "int a;", S "int a;", S "int a;", S "int a;", S "int a;",
   S "int a;", S "int a;", S "int a;", S "int a;",
   S "\x7d", S "\x7d"]

/-- Synthetic file whose two nested frames are both still open when the scan
ends: `outer` opens at line 1, `inner` at line 2, and no brace ever closes. -/
def fileC2open : List Line :=
  [S "void outer() \x7b", S "void inner() \x7b", S "int x;"]

/-- Before-file for the pure-addition scenario: method `g` spanning 1-3. -/
def buggy4 : List Line := [S "public void g() \x7b", S "int a;", S "\x7d"]

/-- After-file for the pure-addition scenario: one line added inside `g`. -/
def fixed4 : List Line := [S "public void g() \x7b", S "int a;", S "int b;", S "\x7d"]

/-- Unified diff of `buggy4` against `fixed4`: a single pure addition. -/
def diff4 : Line := S "@@ -2,0 +3,1 @@\n+int b;"

/-- Before-file for the purely-added-method scenario. -/
def buggy4b : List Line := [S "public void g() \x7b", S "int a;", S "\x7d"]

/-- After-file for the purely-added-method scenario: a new method `h`. -/
def fixed4b : List Line :=
  [S "public void g() \x7b", S "int a;", S "\x7d",
   S "public void h() \x7b", S "int b;", S "\x7d"]

/-- Unified diff of `buggy4b` against `fixed4b`: `h` is purely added. -/
def diff4b : Line := S "@@ -3,0 +4,3 @@\n+public void h() \x7b\n+int b;\n+\x7d"

/-- Before-file for the purely-deleted-method scenario: has method `k`. -/
def buggy4c : List Line :=
  [S "public void g() \x7b", S "int a;", S "\x7d",
   S "public void k() \x7b", S "int b;", S "\x7d"]

/-- After-file for the purely-deleted-method scenario: `k` is gone. -/
def fixed4c : List Line := [S "public void g() \x7b", S "int a;", S "\x7d"]

/-- Unified diff of `buggy4c` against `fixed4c`: `k` is purely deleted. -/
def diff4c : Line := S "@@ -4,3 +3,0 @@\n-public void k() \x7b\n-int b;\n-\x7d"

/-- After-file for the first-versus-smallest scenario: an inner declaration at
line 3 normalizes to the same signature `f()` as the outer one at line 1. -/
def fixed7 : List Line :=
  [S "public void f() \x7b", S "int a;", S "public void f() \x7b", S "int b;",
   S "\x7d", S "int c;", S "\x7d"]

/-- Before-file for the first-versus-smallest scenario: empty content. -/
def buggy7 : List Line := [S ""]

/-- Unified diff whose after side changes lines 4 and 6 of `fixed7`. -/
def diff7 : Line := S "@@ -1,0 +4,1 @@\n+x\n@@ -1,0 +6,1 @@\n+y"

/-- Single-line file on which the signature matcher succeeds with arity 2. -/
def sigFile3 : List Line := [S "public int foo(int a, int b) \x7b"]

theorem S_atat : S "@@" = [64, 64] := rfl

theorem S_dash : S "-" = [45] := rfl

theorem S_dashes : S "---" = [45, 45, 45] := rfl

theorem S_plus : S "+" = [43] := rfl

theorem S_pluses : S "+++" = [43, 43, 43] := rfl

theorem S_backslash : S "\\" = [92] := rfl

/-- C2 counterexample: in `fileC2open` the frames for `outer` (opened at line
1) and `inner` (opened at line 2) are both still open when the scan ends, and
for target line 5 the scan returns the OUTER frame, not the most recently
opened `inner` frame; line 3 (reached during the scan) confirms that `inner`
is the innermost enclosing frame there. -/
theorem c2_innermost_cex :
    find_method_at_line fileC2open 5 = some ⟨S "outer", S "outer()", 1, none⟩ ∧
    find_method_at_line fileC2open 5 ≠ some ⟨S "inner", S "inner()", 2, none⟩ ∧
    find_method_at_line fileC2open 3 = some ⟨S "inner", S "inner()", 2, none⟩ := by
  refine ⟨by decide, by decide, by decide⟩

/-- C4 counterexample: `diff4` is a pure addition (the before-side changed set
is empty), yet the emitted record carries a populated `line_start_buggy`,
backfilled by the signature matcher from the before-file. -/
theorem c4_pure_addition_cex :
    (parseDiff (splitOnCh 10 diff4)).buggy = [] ∧
    (parseDiff (splitOnCh 10 diff4)).fixed = [3] ∧
    extract_modified_methods diff4 buggy4 fixed4 (S "F.java") (S "F") =
      [⟨S "F.java", S "F", S "g()", S "g", some 1, some 1⟩] := by
  refine ⟨by decide, by decide, by decide⟩

/-- C5: byte-identical files produce empty diff text (the behaviour of the
external `diff` tool the code shells out to), and on empty diff text the core
emits zero records while the parse loop records no changed line on either
side. -/
theorem c5_identity :
    (∀ buggyFile fixedFile fileP cls,
      extract_modified_methods [] buggyFile fixedFile fileP cls = []) ∧
    (parseDiff (splitOnCh 10 [])).buggy = [] ∧
    (parseDiff (splitOnCh 10 [])).fixed = [] := by
  refine ⟨fun _ _ _ _ => rfl, by decide, by decide⟩

/-- C7 counterexample: in `fixed7` the changed after-lines 4 and 6 resolve to
the same signature `f()` with start lines 3 and 1 respectively; the merged
record keeps the first value seen (3), not the smallest one seen (1). -/
theorem c7_smallest_cex :
    (parseDiff (splitOnCh 10 diff7)).fixed = [4, 6] ∧
    find_method_at_line fixed7 4 = some ⟨S "f", S "f()", 3, none⟩ ∧
    find_method_at_line fixed7 6 = some ⟨S "f", S "f()", 1, none⟩ ∧
    extract_modified_methods diff7 buggy7 fixed7 (S "F.java") (S "F") =
      [⟨S "F.java", S "F", S "f()", S "f", none, some 3⟩] := by
  refine ⟨by decide, by decide, by decide, by decide⟩

theorem popLoop_found_start_le (braceDepth : Int) (target lineNum : Nat) :
    ∀ stack r, popLoop braceDepth target lineNum stack = PopOut.found r →
      r.start_line ≤ target := by
  intro stack
  induction stack with
  | nil => intro r h; simp [popLoop] at h
  | cons f rest ih =>
    intro r h
    rw [popLoop] at h
    split at h
    · split at h
      · cases h
        simpa using (by assumption : f.start_line ≤ target ∧ target ≤ lineNum).1
      · exact ih r h
    · cases h

theorem popLoop_stack_mem (braceDepth : Int) (target lineNum : Nat) :
    ∀ stack s, popLoop braceDepth target lineNum stack = PopOut.stack s →
      ∀ f ∈ s, f ∈ stack := by
  intro stack
  induction stack with
  | nil =>
    intro s h f hf
    simp [popLoop] at h
    subst h
    simp at hf
  | cons g rest ih =>
    intro s h f hf
    rw [popLoop] at h
    split at h
    · split at h
      · cases h
      · exact List.mem_cons_of_mem g (ih s h f hf)
    · cases h
      exact hf

theorem scanResolve_ret_start_le (newDepth : Int) (target lineNum : Nat)
    (stack1 : List MethodFrame) (hinv : ∀ f ∈ stack1, f.start_line ≤ lineNum)
    (r : MethodResult) (h : scanResolve newDepth target lineNum stack1 = ScanStep.ret r) :
    r.start_line ≤ target := by
  unfold scanResolve at h
  split at h
  case _ hp =>
    cases h
    exact popLoop_found_start_le _ _ _ _ _ hp
  case _ s2 hp =>
    split at h
    · cases h
    case _ f s3 =>
      split at h
      case isTrue heq =>
        cases h
        exact heq ▸ hinv f (popLoop_stack_mem _ _ _ _ _ hp f (by simp))
      case isFalse hne => cases h

theorem scanResolve_cont_mem (newDepth : Int) (target lineNum : Nat)
    (stack1 : List MethodFrame) (bd2 : Int) (st2 : List MethodFrame)
    (h : scanResolve newDepth target lineNum stack1 = ScanStep.cont bd2 st2) :
    ∀ f ∈ st2, f ∈ stack1 := by
  unfold scanResolve at h
  split at h
  · cases h
  case _ s2 hp =>
    split at h
    · cases h
      intro f hf
      simp at hf
    case _ g s3 =>
      split at h
      · cases h
      · cases h
        exact popLoop_stack_mem _ _ _ _ _ hp

theorem scanStep_ret_start_le (lines : List Line) (target : Nat) (line : Line) (i : Nat)
    (braceDepth : Int) (stack : List MethodFrame)
    (hinv : ∀ f ∈ stack, f.start_line ≤ i + 1) (r : MethodResult)
    (h : scanStep lines target line i braceDepth stack = ScanStep.ret r) :
    r.start_line ≤ target := by
  unfold scanStep at h
  refine scanResolve_ret_start_le _ _ _ _ ?_ r h
  split
  · intro f hf
    rcases List.mem_cons.mp hf with hv | hv
    · subst hv; simp
    · exact hinv f hv
  · exact hinv

theorem scanStep_cont_inv (lines : List Line) (target : Nat) (line : Line) (i : Nat)
    (braceDepth : Int) (stack : List MethodFrame)
    (hinv : ∀ f ∈ stack, f.start_line ≤ i + 1) (bd2 : Int) (st2 : List MethodFrame)
    (h : scanStep lines target line i braceDepth stack = ScanStep.cont bd2 st2) :
    ∀ f ∈ st2, f.start_line ≤ i + 2 := by
  unfold scanStep at h
  intro f hf
  have hm := scanResolve_cont_mem _ _ _ _ _ _ h f hf
  have hle : f.start_line ≤ i + 1 := by
    revert hm
    split
    · intro hm
      rcases List.mem_cons.mp hm with hv | hv
      · subst hv; simp
      · exact hinv f hv
    · intro hm
      exact hinv f hm
  omega

theorem scanLoopAux_start_le (lines : List Line) (target : Nat) :
    ∀ suffix i braceDepth stack,
      (∀ f ∈ stack, f.start_line ≤ i + 1) →
      ∀ r, scanLoopAux lines target suffix i braceDepth stack = some r →
        r.start_line ≤ target := by
  intro suffix
  induction suffix with
  | nil =>
    intro i bd stack hinv r h
    simp only [scanLoopAux] at h
    unfold scanLeftover at h
    split at h
    case _ f hf =>
      cases h
      have := List.find?_some hf
      simpa using this
    · cases h
  | cons line rest ih =>
    intro i bd stack hinv r h
    simp only [scanLoopAux] at h
    split at h
    case _ r0 hs =>
      cases h
      exact scanStep_ret_start_le lines target line i bd stack hinv r hs
    case _ bd2 st2 hs =>
      exact ih (i + 1) bd2 st2 (scanStep_cont_inv lines target line i bd stack hinv bd2 st2 hs) r h

/-- C10: whenever the locator returns a result, its start line does not exceed
the target line, on all three return paths. -/
theorem c10_start_le_target (lines : List Line) (target : Nat) (r : MethodResult)
    (h : find_method_at_line lines target = some r) : r.start_line ≤ target :=
  scanLoopAux_start_le lines target lines 0 0 [] (by simp) r h

/-- Witness for C10 at a concrete file and target. -/
theorem c10_start_le_target_witness :
    (⟨S "bar", S "bar()", 10, none⟩ : MethodResult).start_line ≤ 13 :=
  c10_start_le_target file1 13 ⟨S "bar", S "bar()", 10, none⟩ (by decide)

theorem sigScanAux_success (lines : List Line) (methodName : Line) (sigCount : Nat) :
    ∀ suffix i inComment r,
      sigScanAux lines methodName sigCount suffix i inComment = some r →
      r.name = methodName ∧ r.start_line = r.start_line - 1 + 1 ∧
        extractCount lines (r.start_line - 1) methodName = some sigCount := by
  intro suffix
  induction suffix with
  | nil => intro i ic r h; simp [sigScanAux] at h
  | cons line rest ih =>
    intro i ic r h
    simp only [sigScanAux] at h
    split at h
    · exact ih (i + 1) true r h
    · split at h
      · exact ih (i + 1) false r h
      · split at h
        · exact ih (i + 1) ic r h
        · split at h
          · split at h
            case _ c hc =>
              split at h
              case isTrue hceq =>
                cases h
                subst hceq
                exact ⟨rfl, by simp, by simpa using hc⟩
              case isFalse => exact ih (i + 1) ic r h
            case _ => exact ih (i + 1) ic r h
          · exact ih (i + 1) ic r h

/-- C3: when the signature matcher returns a candidate, the parameter count
extracted from that candidate declaration equals the count computed from the
requested signature; it never returns a candidate whose count differs. -/
theorem c3_arity_bound (lines : List Line) (methodName signature : Line) (r : SigMatch)
    (h : find_method_by_signature lines methodName signature = some r) :
    extractCount lines (r.start_line - 1) methodName = some (sigParamCount signature) :=
  (sigScanAux_success lines methodName (sigParamCount signature) lines 0 false r h).2.2

/-- Witness for C3 on a concrete file, name, and signature. -/
theorem c3_arity_bound_witness :
    extractCount sigFile3 0 (S "foo") = some (sigParamCount (S "foo(int,int)")) :=
  c3_arity_bound sigFile3 (S "foo") (S "foo(int,int)") ⟨S "foo", 1⟩ (by decide)

/-- C6: per-line cursor bookkeeping of the diff parse loop. A hunk header
resets both cursors from its start fields; a removal line records and
advances the before-cursor only; an addition line records and advances the
after-cursor only; any other line not starting with a backslash advances both
cursors without recording; a backslash marker line changes nothing. -/
theorem c6_diff_cursor_step (s : DiffState) (l : Line) :
    (startsWithL (S "@@") l = true → ∀ b f, parseHunkHeader l = some (b, f) →
      diffStep s l = { s with curBuggy := b, curFixed := f }) ∧
    (startsWithL (S "-") l = true → startsWithL (S "---") l = false →
      diffStep s l = { s with buggy := s.buggy ++ [s.curBuggy], curBuggy := s.curBuggy + 1 }) ∧
    (startsWithL (S "+") l = true → startsWithL (S "+++") l = false →
      diffStep s l = { s with fixed := s.fixed ++ [s.curFixed], curFixed := s.curFixed + 1 }) ∧
    (startsWithL (S "@@") l = false → startsWithL (S "-") l = false →
      startsWithL (S "+") l = false → startsWithL (S "\\") l = false →
      diffStep s l = { s with curBuggy := s.curBuggy + 1, curFixed := s.curFixed + 1 }) ∧
    (startsWithL (S "\\") l = true → diffStep s l = s) := by
  refine ⟨?_, ?_, ?_, ?_, ?_⟩
  · intro h b f hp
    simp [diffStep, h, hp]
  · intro h1 h2
    match l with
    | [] => simp [S_dash, startsWithL] at h1
    | c :: t =>
      rw [S_dash] at h1
      simp only [startsWithL, Bool.and_eq_true, decide_eq_true_eq] at h1
      obtain ⟨rfl, -⟩ := h1
      simp [S_dashes, startsWithL] at h2
      simp [diffStep, startsWithL, S_atat, S_dash, S_dashes, h2]
  · intro h1 h2
    match l with
    | [] => simp [S_plus, startsWithL] at h1
    | c :: t =>
      rw [S_plus] at h1
      simp only [startsWithL, Bool.and_eq_true, decide_eq_true_eq] at h1
      obtain ⟨rfl, -⟩ := h1
      simp [S_pluses, startsWithL] at h2
      simp [diffStep, startsWithL, S_atat, S_dash, S_plus, S_pluses, h2]
  · intro h1 h2 h3 h4
    simp [diffStep, h1, h2, h3, h4]
  · intro h
    match l with
    | [] => simp [S_backslash, startsWithL] at h
    | c :: t =>
      rw [S_backslash] at h
      simp only [startsWithL, Bool.and_eq_true, decide_eq_true_eq] at h
      obtain ⟨rfl, -⟩ := h
      simp [diffStep, startsWithL, S_atat, S_dash, S_plus, S_backslash]

/-- Witness for C6: each of the five line shapes at a concrete state. -/
theorem c6_diff_cursor_step_witness :
    diffStep ⟨[], [], 5, 7⟩ (S "@@ -3 +4 @@") = ⟨[], [], 3, 4⟩ ∧
    diffStep ⟨[], [], 5, 7⟩ (S "-x") = ⟨[5], [], 6, 7⟩ ∧
    diffStep ⟨[], [], 5, 7⟩ (S "+x") = ⟨[], [7], 5, 8⟩ ∧
    diffStep ⟨[], [], 5, 7⟩ (S " ctx") = ⟨[], [], 6, 8⟩ ∧
    diffStep ⟨[], [], 5, 7⟩ (S "\\ No newline at end of file") = ⟨[], [], 5, 7⟩ :=
  ⟨(c6_diff_cursor_step ⟨[], [], 5, 7⟩ (S "@@ -3 +4 @@")).1 (by decide) 3 4 (by decide),
   (c6_diff_cursor_step ⟨[], [], 5, 7⟩ (S "-x")).2.1 (by decide) (by decide),
   (c6_diff_cursor_step ⟨[], [], 5, 7⟩ (S "+x")).2.2.1 (by decide) (by decide),
   (c6_diff_cursor_step ⟨[], [], 5, 7⟩ (S " ctx")).2.2.2.1 (by decide) (by decide)
     (by decide) (by decide),
   (c6_diff_cursor_step ⟨[], [], 5, 7⟩ (S "\\ No newline at end of file")).2.2.2.2 (by decide)⟩

/-- C9: a line that looks like a hunk header but does not match the header
pattern leaves the parse state unchanged, and the parse resumes at the next
line; the fold never fails. -/
theorem c9_malformed_header_skipped (s : DiffState) (l : Line) (rest : List Line)
    (h1 : startsWithL (S "@@") l = true) (h2 : parseHunkHeader l = none) :
    diffStep s l = s ∧ (l :: rest).foldl diffStep s = rest.foldl diffStep s := by
  have gd : diffStep s l = s := by simp [diffStep, h1, h2]
  exact ⟨gd, by simp [List.foldl_cons, gd]⟩

/-- Witness for C9 on a concrete malformed header line. -/
theorem c9_malformed_header_skipped_witness :
    diffStep ⟨[], [], 3, 7⟩ (S "@@ garbage @@") = ⟨[], [], 3, 7⟩ ∧
    ((S "@@ garbage @@") :: [S "+x"]).foldl diffStep ⟨[], [], 3, 7⟩ =
      [S "+x"].foldl diffStep ⟨[], [], 3, 7⟩ :=
  c9_malformed_header_skipped ⟨[], [], 3, 7⟩ (S "@@ garbage @@") [S "+x"]
    (by decide) (by decide)

theorem mfLookup_append_some :
    ∀ (m : List (Line × MethodRecord)) (xs : List (Line × MethodRecord)) (k : Line)
      (r : MethodRecord), mfLookup m k = some r → mfLookup (m ++ xs) k = some r := by
  intro m
  induction m with
  | nil => intro xs k r h; simp [mfLookup] at h
  | cons p rest ih =>
    intro xs k r h
    rw [mfLookup] at h
    rw [List.cons_append, mfLookup]
    by_cases hpk : p.1 = k
    · rw [if_pos hpk] at h ⊢; exact h
    · rw [if_neg hpk] at h ⊢; exact ih xs k r h

theorem mfLookup_append_none :
    ∀ (m : List (Line × MethodRecord)) (xs : List (Line × MethodRecord)) (k : Line),
      mfLookup m k = none → mfLookup (m ++ xs) k = mfLookup xs k := by
  intro m
  induction m with
  | nil => intro xs k _; simp
  | cons p rest ih =>
    intro xs k h
    rw [mfLookup] at h
    rw [List.cons_append, mfLookup]
    by_cases hpk : p.1 = k
    · rw [if_pos hpk] at h; cases h
    · rw [if_neg hpk] at h ⊢; exact ih xs k h

theorem mfLookup_single (k2 k : Line) (v : MethodRecord) :
    mfLookup [(k2, v)] k = if k2 = k then some v else none := by
  rw [mfLookup]
  rfl

theorem mfLookup_update_self :
    ∀ (m : List (Line × MethodRecord)) (k : Line) (g : MethodRecord → MethodRecord),
      mfLookup (mfUpdate k g m) k = (mfLookup m k).map g := by
  intro m
  induction m with
  | nil => intro k g; simp [mfUpdate, mfLookup]
  | cons p rest ih =>
    intro k g
    rw [mfUpdate]
    by_cases hpk : p.1 = k
    · rw [if_pos hpk, mfLookup, mfLookup, if_pos hpk, if_pos hpk]
      rfl
    · rw [if_neg hpk, mfLookup, mfLookup, if_neg hpk, if_neg hpk]
      exact ih k g

theorem mfLookup_update_ne :
    ∀ (m : List (Line × MethodRecord)) (k k2 : Line) (g : MethodRecord → MethodRecord),
      k2 ≠ k → mfLookup (mfUpdate k2 g m) k = mfLookup m k := by
  intro m
  induction m with
  | nil => intro k k2 g _; simp [mfUpdate]
  | cons p rest ih =>
    intro k k2 g hne
    rw [mfUpdate]
    by_cases hpk : p.1 = k2
    · rw [if_pos hpk, mfLookup, mfLookup]
      have : ¬ p.1 = k := by rw [hpk]; exact hne
      rw [if_neg this, if_neg this]
    · rw [if_neg hpk, mfLookup, mfLookup]
      by_cases hk : p.1 = k
      · rw [if_pos hk, if_pos hk]
      · rw [if_neg hk, if_neg hk]
        exact ih k k2 g hne

theorem mfLookup_some_mem :
    ∀ (m : List (Line × MethodRecord)) (k : Line) (r : MethodRecord),
      mfLookup m k = some r → (k, r) ∈ m := by
  intro m
  induction m with
  | nil => intro k r h; simp [mfLookup] at h
  | cons p rest ih =>
    intro k r h
    rw [mfLookup] at h
    by_cases hpk : p.1 = k
    · rw [if_pos hpk] at h
      cases h
      have : (k, p.2) = p := by
        cases p
        simp at hpk ⊢
        exact hpk.symm
      rw [this]
      exact List.mem_cons_self p rest
    · rw [if_neg hpk] at h
      exact List.mem_cons_of_mem p (ih k r h)

theorem mem_mfUpdate :
    ∀ (m : List (Line × MethodRecord)) (k : Line) (g : MethodRecord → MethodRecord)
      (p : Line × MethodRecord), p ∈ mfUpdate k g m →
      ∃ q ∈ m, p = q ∨ p = (q.1, g q.2) := by
  intro m
  induction m with
  | nil => intro k g p h; simp [mfUpdate] at h
  | cons q rest ih =>
    intro k g p h
    rw [mfUpdate] at h
    by_cases hqk : q.1 = k
    · rw [if_pos hqk] at h
      rcases List.mem_cons.mp h with hv | hv
      · exact ⟨q, List.mem_cons_self q rest, Or.inr hv⟩
      · exact ⟨p, List.mem_cons_of_mem q hv, Or.inl rfl⟩
    · rw [if_neg hqk] at h
      rcases List.mem_cons.mp h with hv | hv
      · exact ⟨q, List.mem_cons_self q rest, Or.inl hv⟩
      · obtain ⟨q2, hq2, hor⟩ := ih k g p hv
        exact ⟨q2, List.mem_cons_of_mem q hq2, hor⟩

theorem mfUpdate_keys :
    ∀ (m : List (Line × MethodRecord)) (k : Line) (g : MethodRecord → MethodRecord),
      (mfUpdate k g m).map Prod.fst = m.map Prod.fst := by
  intro m
  induction m with
  | nil => intro k g; simp [mfUpdate]
  | cons p rest ih =>
    intro k g
    rw [mfUpdate]
    by_cases hpk : p.1 = k
    · rw [if_pos hpk]
      simp
    · rw [if_neg hpk]
      simp [ih k g]

theorem setFixedIfNone_isSome (v : Nat) (r : MethodRecord) :
    (setFixedIfNone v r).line_start_fixed.isSome = true := by
  unfold setFixedIfNone
  split
  · simp
  case isFalse h =>
    cases ho : r.line_start_fixed with
    | none => exact absurd (by rw [ho]; rfl) h
    | some v2 => rfl

theorem stepFixed_allSome (fileP cls : Line) (fixedFile : List Line)
    (m : List (Line × MethodRecord)) (ln : Nat)
    (hall : ∀ p ∈ m, p.2.line_start_fixed.isSome = true) :
    ∀ p ∈ stepFixed fileP cls fixedFile m ln, p.2.line_start_fixed.isSome = true := by
  simp only [stepFixed]
  split
  · exact hall
  case _ mi _ =>
    intro p hp
    obtain ⟨q, hq, hor⟩ := mem_mfUpdate _ _ _ p hp
    have hq2 : q.2.line_start_fixed.isSome = true := by
      revert hq
      split
      · intro hq
        rcases List.mem_append.mp hq with hv | hv
        · exact hall q hv
        · simp at hv
          rw [hv]
          rfl
      · intro hq
        exact hall q hq
    rcases hor with hv | hv
    · rw [hv]; exact hq2
    · rw [hv]; exact setFixedIfNone_isSome _ _

theorem stepFixed_lookup_some (fileP cls : Line) (fixedFile : List Line)
    (m : List (Line × MethodRecord)) (ln : Nat) (k : Line) (r : MethodRecord)
    (h : mfLookup m k = some r) (hs : r.line_start_fixed.isSome = true) :
    mfLookup (stepFixed fileP cls fixedFile m ln) k = some r := by
  simp only [stepFixed]
  split
  · exact h
  case _ mi _ =>
    by_cases hk : mi.signature = k
    · subst hk
      rw [if_neg (by rw [h]; simp)]
      obtain ⟨v, hv⟩ := Option.isSome_iff_exists.mp hs
      rw [mfLookup_update_self, h]
      unfold setFixedIfNone
      simp [hv]
    · rw [mfLookup_update_ne _ _ _ _ hk]
      split
      · exact mfLookup_append_some m _ k r h
      · exact h

theorem stepFixed_lookup_create (fileP cls : Line) (fixedFile : List Line)
    (m : List (Line × MethodRecord)) (ln : Nat) (mi : MethodResult)
    (hf : find_method_at_line fixedFile ln = some mi)
    (h : mfLookup m mi.signature = none) :
    mfLookup (stepFixed fileP cls fixedFile m ln) mi.signature =
      some ⟨fileP, cls, mi.signature, mi.name, none, some mi.start_line⟩ := by
  simp only [stepFixed, hf]
  rw [if_pos (by rw [h]; rfl)]
  rw [mfLookup_update_self]
  rw [mfLookup_append_none m _ _ h, mfLookup_single, if_pos rfl]
  rfl

theorem stepFixed_lookup_none (fileP cls : Line) (fixedFile : List Line)
    (m : List (Line × MethodRecord)) (ln : Nat) (k : Line)
    (h : mfLookup m k = none)
    (hmiss : ∀ mi, find_method_at_line fixedFile ln = some mi → mi.signature ≠ k) :
    mfLookup (stepFixed fileP cls fixedFile m ln) k = none := by
  simp only [stepFixed]
  split
  · exact h
  case _ mi hf =>
    have hk : mi.signature ≠ k := hmiss mi hf
    rw [mfLookup_update_ne _ _ _ _ hk]
    split
    · rw [mfLookup_append_none m _ _ h, mfLookup_single, if_neg hk]
    · exact h

theorem firstResolvedStart_cons (file : List Line) (ln : Nat) (lns : List Nat) (k : Line) :
    firstResolvedStart file (ln :: lns) k =
      match find_method_at_line file ln with
      | some mi => if mi.signature = k then some mi.start_line
                   else firstResolvedStart file lns k
      | none => firstResolvedStart file lns k := by
  unfold firstResolvedStart
  rw [List.findSome?_cons]
  split
  case _ heq =>
    revert heq
    split
    case _ mi =>
      split
      · intro heq
        simp at heq
        rw [heq]
      · intro heq
        cases heq
    · intro heq
      cases heq
  case _ heq =>
    revert heq
    split
    case _ mi =>
      split
      · intro heq
        cases heq
      · intro _
        rfl
    · intro _
      rfl

theorem stepFixed_foldl_char (fileP cls : Line) (fixedFile : List Line) :
    ∀ (lns : List Nat) (m : List (Line × MethodRecord)),
      (∀ p ∈ m, p.2.line_start_fixed.isSome = true) →
      ∀ (k : Line) (r : MethodRecord),
        mfLookup (lns.foldl (stepFixed fileP cls fixedFile) m) k = some r →
        (∀ r0, mfLookup m k = some r0 → r = r0) ∧
        (mfLookup m k = none →
          r.line_start_fixed = firstResolvedStart fixedFile lns k) := by
  intro lns
  induction lns with
  | nil =>
    intro m hall k r h
    simp only [List.foldl_nil] at h
    refine ⟨fun r0 h0 => ?_, fun h0 => ?_⟩
    · rw [h] at h0
      exact Option.some_inj.mp h0
    · rw [h0] at h
      cases h
  | cons ln lns ih =>
    intro m hall k r h
    simp only [List.foldl_cons] at h
    have hall2 := stepFixed_allSome fileP cls fixedFile m ln hall
    have IH := ih (stepFixed fileP cls fixedFile m ln) hall2 k r h
    rcases hfind : find_method_at_line fixedFile ln with _ | mi
    · have hstep : stepFixed fileP cls fixedFile m ln = m := by
        simp only [stepFixed, hfind]
      rw [hstep] at IH
      rw [firstResolvedStart_cons]
      simp only [hfind]
      exact IH
    · by_cases hk : mi.signature = k
      · subst hk
        rcases hlook : mfLookup m mi.signature with _ | r0
        · have hc := stepFixed_lookup_create fileP cls fixedFile m ln mi hfind hlook
          have hr := IH.1 _ hc
          refine ⟨fun r0 h0 => ?_, fun _ => ?_⟩
          · simp at h0
          · rw [firstResolvedStart_cons]
            simp only [hfind]
            rw [hr]
            simp
        · have hr0 : r0.line_start_fixed.isSome = true :=
            hall _ (mfLookup_some_mem m _ r0 hlook)
          have hS := stepFixed_lookup_some fileP cls fixedFile m ln _ r0 hlook hr0
          have heq := IH.1 r0 hS
          refine ⟨fun r1 h1 => ?_, fun h0 => ?_⟩
          · exact heq.trans (Option.some_inj.mp h1)
          · simp at h0
      · have hpre : mfLookup (stepFixed fileP cls fixedFile m ln) k = mfLookup m k := by
          simp only [stepFixed, hfind]
          rw [mfLookup_update_ne _ _ _ _ hk]
          split
          · rcases hl : mfLookup m k with _ | r2
            · rw [mfLookup_append_none m _ _ hl, mfLookup_single, if_neg hk]
            · exact mfLookup_append_some m _ k r2 hl
          · rfl
        rw [hpre] at IH
        rw [firstResolvedStart_cons]
        simp only [hfind]
        rw [if_neg hk]
        exact IH

/-- C7 amended: on the after side, the merged record for a signature carries
the start line found at the FIRST changed line (in the ascending iteration
order of the changed-line set) that resolves to that signature, which need not
be the smallest start line seen for that signature; the before side behaves
symmetrically. -/
theorem c7_first_seen_amended (fixedFile : List Line) (fileP cls : Line)
    (lineNums : List Nat) (k : Line) (r : MethodRecord)
    (h : mfLookup (lineNums.foldl (stepFixed fileP cls fixedFile) []) k = some r) :
    r.line_start_fixed = firstResolvedStart fixedFile lineNums k :=
  (stepFixed_foldl_char fileP cls fixedFile lineNums [] (by simp) k r h).2 rfl

/-- Witness for the amended C7 on the concrete `fixed7` scenario. -/
theorem c7_first_seen_amended_witness :
    (⟨S "F.java", S "F", S "f()", S "f", none, some 3⟩ : MethodRecord).line_start_fixed =
      firstResolvedStart fixed7 [4, 6] (S "f()") :=
  c7_first_seen_amended fixed7 (S "F.java") (S "F") [4, 6] (S "f()")
    ⟨S "F.java", S "F", S "f()", S "f", none, some 3⟩ (by decide)

theorem setFixedIfNone_method (v : Nat) (r : MethodRecord) :
    (setFixedIfNone v r).method = r.method := by
  unfold setFixedIfNone
  split <;> rfl

theorem setBuggyIfNone_method (v : Nat) (r : MethodRecord) :
    (setBuggyIfNone v r).method = r.method := by
  unfold setBuggyIfNone
  split <;> rfl

theorem mfLookup_none_not_mem :
    ∀ (m : List (Line × MethodRecord)) (k : Line), mfLookup m k = none →
      k ∉ m.map Prod.fst := by
  intro m
  induction m with
  | nil => intro k _; simp
  | cons p rest ih =>
    intro k h
    rw [mfLookup] at h
    by_cases hpk : p.1 = k
    · rw [if_pos hpk] at h
      cases h
    · rw [if_neg hpk] at h
      simp only [List.map_cons, List.mem_cons]
      rintro (hv | hv)
      · exact hpk hv.symm
      · exact ih k h hv

theorem mfInv_update (m : List (Line × MethodRecord)) (k : Line)
    (g : MethodRecord → MethodRecord) (hg : ∀ r, (g r).method = r.method)
    (h : mfInv m) : mfInv (mfUpdate k g m) := by
  obtain ⟨hnd, hmeth⟩ := h
  constructor
  · rw [mfUpdate_keys]
    exact hnd
  · intro p hp
    obtain ⟨q, hq, hor⟩ := mem_mfUpdate m k g p hp
    rcases hor with hv | hv
    · rw [hv]
      exact hmeth q hq
    · rw [hv]
      show (g q.2).method = q.1
      rw [hg q.2]
      exact hmeth q hq

theorem mfInv_append_single (m : List (Line × MethodRecord)) (k : Line)
    (v : MethodRecord) (h : mfInv m) (hl : mfLookup m k = none)
    (hv : v.method = k) : mfInv (m ++ [(k, v)]) := by
  obtain ⟨hnd, hmeth⟩ := h
  constructor
  · rw [List.map_append]
    refine List.Nodup.append hnd (by simp) ?_
    intro a ha hb
    simp at hb
    subst hb
    exact mfLookup_none_not_mem m a hl ha
  · intro p hp
    rcases List.mem_append.mp hp with hm | hm
    · exact hmeth p hm
    · simp at hm
      rw [hm]
      exact hv

theorem stepFixed_mfInv (fileP cls : Line) (fixedFile : List Line)
    (m : List (Line × MethodRecord)) (ln : Nat) (h : mfInv m) :
    mfInv (stepFixed fileP cls fixedFile m ln) := by
  simp only [stepFixed]
  split
  · exact h
  case _ mi _ =>
    refine mfInv_update _ _ _ (setFixedIfNone_method mi.start_line) ?_
    split
    case isTrue hn =>
      exact mfInv_append_single m mi.signature _ h (by simpa using hn) rfl
    · exact h

theorem stepBuggy_mfInv (fileP cls : Line) (buggyFile : List Line)
    (m : List (Line × MethodRecord)) (ln : Nat) (h : mfInv m) :
    mfInv (stepBuggy fileP cls buggyFile m ln) := by
  simp only [stepBuggy]
  split
  · exact h
  case _ mi _ =>
    split
    case isTrue hn =>
      exact mfInv_append_single m mi.signature _ h (by simpa using hn) rfl
    · exact mfInv_update _ _ _ (setBuggyIfNone_method mi.start_line) h

theorem foldl_stepFixed_mfInv (fileP cls : Line) (fixedFile : List Line) :
    ∀ (lns : List Nat) (m : List (Line × MethodRecord)), mfInv m →
      mfInv (lns.foldl (stepFixed fileP cls fixedFile) m) := by
  intro lns
  induction lns with
  | nil => intro m h; exact h
  | cons ln lns ih =>
    intro m h
    exact ih _ (stepFixed_mfInv fileP cls fixedFile m ln h)

theorem foldl_stepBuggy_mfInv (fileP cls : Line) (buggyFile : List Line) :
    ∀ (lns : List Nat) (m : List (Line × MethodRecord)), mfInv m →
      mfInv (lns.foldl (stepBuggy fileP cls buggyFile) m) := by
  intro lns
  induction lns with
  | nil => intro m h; exact h
  | cons ln lns ih =>
    intro m h
    exact ih _ (stepBuggy_mfInv fileP cls buggyFile m ln h)

theorem backfillBuggy_method (buggyFile : List Line) (r : MethodRecord) :
    (backfillBuggy buggyFile r).method = r.method := by
  unfold backfillBuggy
  split
  · split <;> rfl
  · rfl

theorem backfillFixed_method (fixedFile : List Line) (r : MethodRecord) :
    (backfillFixed fixedFile r).method = r.method := by
  unfold backfillFixed
  split
  · split <;> rfl
  · rfl

theorem backfill_method (buggyFile fixedFile : List Line) (p : Line × MethodRecord) :
    (backfill buggyFile fixedFile p).2.method = p.2.method := by
  show (backfillFixed fixedFile (backfillBuggy buggyFile p.2)).method = p.2.method
  rw [backfillFixed_method, backfillBuggy_method]

theorem mfInv_map_backfill (buggyFile fixedFile : List Line)
    (m : List (Line × MethodRecord)) (h : mfInv m) :
    mfInv (m.map (backfill buggyFile fixedFile)) := by
  obtain ⟨hnd, hmeth⟩ := h
  constructor
  · rw [List.map_map]
    have he : m.map (Prod.fst ∘ backfill buggyFile fixedFile) = m.map Prod.fst :=
      List.map_congr_left (fun q _ => rfl)
    rw [he]
    exact hnd
  · intro p hp
    obtain ⟨q, hq, hpq⟩ := List.mem_map.mp hp
    rw [← hpq]
    show (backfill buggyFile fixedFile q).2.method = (backfill buggyFile fixedFile q).1
    rw [backfill_method]
    exact hmeth q hq

/-- C8: the records emitted for one file pair carry pairwise-distinct
`method` signatures: at most one record per distinct signature per file. -/
theorem c8_unique_signatures (diffOutput : Line) (buggyFile fixedFile : List Line)
    (fileP cls : Line) :
    ((extract_modified_methods diffOutput buggyFile fixedFile fileP cls).map
      MethodRecord.method).Nodup := by
  simp only [extract_modified_methods]
  split
  · simp
  · have h0 : mfInv ([] : List (Line × MethodRecord)) := ⟨by simp, by simp⟩
    have h1 := foldl_stepFixed_mfInv fileP cls fixedFile
      (toSortedSet (parseDiff (splitOnCh 10 diffOutput)).fixed) [] h0
    have h2 := foldl_stepBuggy_mfInv fileP cls buggyFile
      (toSortedSet (parseDiff (splitOnCh 10 diffOutput)).buggy) _ h1
    obtain ⟨hnd, hmeth⟩ := mfInv_map_backfill buggyFile fixedFile _ h2
    have he := List.map_congr_left
      (fun q hq => hmeth q hq :
        ∀ q ∈ (((toSortedSet (parseDiff (splitOnCh 10 diffOutput)).buggy).foldl
            (stepBuggy fileP cls buggyFile)
            ((toSortedSet (parseDiff (splitOnCh 10 diffOutput)).fixed).foldl
              (stepFixed fileP cls fixedFile) [])).map
            (backfill buggyFile fixedFile)),
          (fun q => q.2.method) q = Prod.fst q)
    rw [List.map_map]
    simp only [Function.comp_def]
    rw [he]
    exact hnd

theorem drop_eq_getD_cons :
    ∀ (lines : List Line) (i : Nat), i < lines.length →
      lines.drop i = lines.getD i [] :: lines.drop (i + 1) := by
  intro lines
  induction lines with
  | nil => intro i h; simp at h
  | cons l rest ih =>
    intro i h
    match i with
    | 0 => rfl
    | j + 1 =>
      simp only [List.drop_succ_cons, List.getD_cons_succ]
      exact ih j (by simpa using h)

theorem braceDelta_zero (lines : List Line) : braceDelta lines 0 = 0 := rfl

theorem braceDelta_succ :
    ∀ (lines : List Line) (i : Nat),
      braceDelta lines (i + 1) =
        braceDelta lines i + (countCh 123 (lines.getD i []) : Int)
          - (countCh 125 (lines.getD i []) : Int) := by
  intro lines
  induction lines with
  | nil =>
    intro i
    simp [braceDelta, countCh]
  | cons l rest ih =>
    intro i
    match i with
    | 0 =>
      simp [braceDelta]
    | j + 1 =>
      have h1 : braceDelta (l :: rest) (j + 2) =
          ((countCh 123 l : Int) - (countCh 125 l : Int)) + braceDelta rest (j + 1) := by
        simp [braceDelta, List.take_succ_cons]
      have h2 : braceDelta (l :: rest) (j + 1) =
          ((countCh 123 l : Int) - (countCh 125 l : Int)) + braceDelta rest j := by
        simp [braceDelta, List.take_succ_cons]
      rw [h1, h2, ih j]
      simp only [List.getD_cons_succ]
      omega

theorem detectDecl_ge_length (lines : List Line) (i : Nat) (h : lines.length ≤ i) :
    detectDecl lines i = none := by
  unfold detectDecl
  rw [List.getD_eq_default _ _ h]
  rfl

theorem scanLoopAux_step (lines : List Line) (target i : Nat) (depth : Int)
    (stack : List MethodFrame) (h : i < lines.length) :
    scanLoopAux lines target (lines.drop i) i depth stack =
      match scanStep lines target (lines.getD i []) i depth stack with
      | .ret r => some r
      | .cont nd st2 => scanLoopAux lines target (lines.drop (i + 1)) (i + 1) nd st2 := by
  rw [drop_eq_getD_cons lines i h]
  rfl

theorem scanStep_quiet (lines : List Line) (target : Nat) (line : Line) (i : Nat)
    (depth : Int) (stack : List MethodFrame)
    (hdet : detectDecl lines i = none)
    (hnopop : ∀ f s2, stack = f :: s2 →
      f.brace_depth_at_start ≤
        depth + (countCh 123 line : Int) - (countCh 125 line : Int))
    (hnotarget : ∀ f s2, stack = f :: s2 → i + 1 ≠ target) :
    scanStep lines target line i depth stack =
      .cont (depth + (countCh 123 line : Int) - (countCh 125 line : Int)) stack := by
  simp only [scanStep, hdet]
  cases stack with
  | nil => rfl
  | cons f s2 =>
    unfold scanResolve
    rw [popLoop]
    rw [if_neg (not_lt.mpr (hnopop f s2 rfl))]
    simp only []
    rw [if_neg (hnotarget f s2 rfl)]

theorem scanStep_quiet_hit (lines : List Line) (target : Nat) (line : Line) (i : Nat)
    (depth : Int) (f : MethodFrame) (s2 : List MethodFrame)
    (hdet : detectDecl lines i = none)
    (hnopop : f.brace_depth_at_start ≤
      depth + (countCh 123 line : Int) - (countCh 125 line : Int))
    (htarget : i + 1 = target) :
    scanStep lines target line i depth (f :: s2) =
      .ret ⟨f.name, f.signature, f.start_line, none⟩ := by
  simp only [scanStep, hdet]
  unfold scanResolve
  rw [popLoop]
  rw [if_neg (not_lt.mpr hnopop)]
  simp only []
  rw [if_pos htarget]

theorem scanStep_push (lines : List Line) (target : Nat) (line : Line) (i : Nat)
    (depth : Int) (stack : List MethodFrame) (d : DeclInfo)
    (hdet : detectDecl lines i = some d)
    (hclose : countCh 125 line = 0)
    (hnot : i + 1 ≠ target) :
    scanStep lines target line i depth stack =
      .cont (depth + (countCh 123 line : Int) - (countCh 125 line : Int))
        ((⟨d.name, d.name ++ 40 :: (d.params ++ [41]), i + 1,
          depth + (countCh 123 line : Int)⟩ : MethodFrame) :: stack) := by
  simp only [scanStep, hdet]
  unfold scanResolve
  rw [popLoop]
  rw [if_neg (by rw [hclose]; simp)]
  simp only []
  rw [if_neg hnot]

theorem scanStep_push_hit (lines : List Line) (target : Nat) (line : Line) (i : Nat)
    (depth : Int) (stack : List MethodFrame) (d : DeclInfo)
    (hdet : detectDecl lines i = some d)
    (hclose : countCh 125 line = 0)
    (htarget : i + 1 = target) :
    scanStep lines target line i depth stack =
      .ret ⟨d.name, d.name ++ 40 :: (d.params ++ [41]), i + 1, none⟩ := by
  simp only [scanStep, hdet]
  unfold scanResolve
  rw [popLoop]
  rw [if_neg (by rw [hclose]; simp)]
  simp only []
  rw [if_pos htarget]

theorem scanStep_pop_found (lines : List Line) (target : Nat) (line : Line) (i : Nat)
    (depth : Int) (f : MethodFrame) (s2 : List MethodFrame)
    (hdet : detectDecl lines i = none)
    (hpop : depth + (countCh 123 line : Int) - (countCh 125 line : Int) <
      f.brace_depth_at_start)
    (hc1 : f.start_line ≤ target) (hc2 : target ≤ i + 1) :
    scanStep lines target line i depth (f :: s2) =
      .ret ⟨f.name, f.signature, f.start_line, some (i + 1)⟩ := by
  simp only [scanStep, hdet]
  unfold scanResolve
  rw [popLoop]
  rw [if_pos hpop, if_pos ⟨hc1, hc2⟩]

theorem scanStep_pop_out (lines : List Line) (target : Nat) (line : Line) (i : Nat)
    (depth : Int) (f : MethodFrame)
    (hdet : detectDecl lines i = none)
    (hpop : depth + (countCh 123 line : Int) - (countCh 125 line : Int) <
      f.brace_depth_at_start)
    (hnc : ¬ (f.start_line ≤ target ∧ target ≤ i + 1)) :
    scanStep lines target line i depth [f] =
      .cont (depth + (countCh 123 line : Int) - (countCh 125 line : Int)) [] := by
  simp only [scanStep, hdet]
  unfold scanResolve
  rw [popLoop]
  rw [if_pos hpop, if_neg hnc]
  rfl

theorem scanLoopAux_advance (lines : List Line) (target : Nat) :
    ∀ (n i : Nat) (stack : List MethodFrame), i + n ≤ lines.length →
      (∀ m, i ≤ m → m < i + n → detectDecl lines m = none) →
      (∀ f s2, stack = f :: s2 → ∀ m, i < m → m ≤ i + n →
        f.brace_depth_at_start ≤ braceDelta lines m ∧ m ≠ target) →
      scanLoopAux lines target (lines.drop i) i (braceDelta lines i) stack =
        scanLoopAux lines target (lines.drop (i + n)) (i + n)
          (braceDelta lines (i + n)) stack := by
  intro n
  induction n with
  | zero => intro i stack _ _ _; rfl
  | succ n ih =>
    intro i stack hlen hdet hfr
    have hi : i < lines.length := by omega
    rw [scanLoopAux_step lines target i (braceDelta lines i) stack hi]
    rw [scanStep_quiet lines target (lines.getD i []) i (braceDelta lines i) stack
      (hdet i (Nat.le_refl i) (by omega))
      (fun f s2 hst => by
        have h := (hfr f s2 hst (i + 1) (by omega) (by omega)).1
        rw [braceDelta_succ] at h
        exact h)
      (fun f s2 hst => (hfr f s2 hst (i + 1) (by omega) (by omega)).2)]
    show scanLoopAux lines target (lines.drop (i + 1)) (i + 1)
        (braceDelta lines i + (countCh 123 (lines.getD i []) : Int)
          - (countCh 125 (lines.getD i []) : Int)) stack = _
    rw [← braceDelta_succ]
    have heq : i + 1 + n = i + (n + 1) := by omega
    have h2 := ih (i + 1) stack (by omega)
      (fun m h1 h2 => hdet m (by omega) (by omega))
      (fun f s2 hst m h1 h2 => hfr f s2 hst m (by omega) (by omega))
    rw [heq] at h2
    exact h2

theorem scanLoopAux_advance_le (lines : List Line) (target i k : Nat)
    (stack : List MethodFrame) (hik : i ≤ k) (hk : k ≤ lines.length)
    (hdet : ∀ m, i ≤ m → m < k → detectDecl lines m = none)
    (hfr : ∀ f s2, stack = f :: s2 → ∀ m, i < m → m ≤ k →
      f.brace_depth_at_start ≤ braceDelta lines m ∧ m ≠ target) :
    scanLoopAux lines target (lines.drop i) i (braceDelta lines i) stack =
      scanLoopAux lines target (lines.drop k) k (braceDelta lines k) stack := by
  have he : i + (k - i) = k := by omega
  have h := scanLoopAux_advance lines target (k - i) i stack (by omega)
    (fun m h1 h2 => hdet m h1 (by omega))
    (fun f s2 hst m h1 h2 => hfr f s2 hst m h1 (by omega))
  rw [he] at h
  exact h

theorem scanLeftover_nil (target : Nat) : scanLeftover target [] = none := rfl

theorem scanLeftover_two (target : Nat) (fIn fOut : MethodFrame)
    (h : fOut.start_line ≤ target) :
    scanLeftover target [fIn, fOut] =
      some ⟨fOut.name, fOut.signature, fOut.start_line, none⟩ := by
  unfold scanLeftover
  have hrev : ([fIn, fOut] : List MethodFrame).reverse = [fOut, fIn] := rfl
  rw [hrev]
  rw [List.find?_cons_of_pos _ (by simpa using h)]

theorem scanLoopAux_step_ret (lines : List Line) (target i : Nat) (depth : Int)
    (stack : List MethodFrame) (r : MethodResult) (h : i < lines.length)
    (hs : scanStep lines target (lines.getD i []) i depth stack = ScanStep.ret r) :
    scanLoopAux lines target (lines.drop i) i depth stack = some r := by
  rw [scanLoopAux_step lines target i depth stack h, hs]

theorem scanLoopAux_step_cont (lines : List Line) (target i : Nat) (depth : Int)
    (stack : List MethodFrame) (nd : Int) (st2 : List MethodFrame)
    (h : i < lines.length)
    (hs : scanStep lines target (lines.getD i []) i depth stack = ScanStep.cont nd st2) :
    scanLoopAux lines target (lines.drop i) i depth stack =
      scanLoopAux lines target (lines.drop (i + 1)) (i + 1) nd st2 := by
  rw [scanLoopAux_step lines target i depth stack h, hs]

/-- C1: for every file text whose only confirmed method declaration is
detected at line 10 (the scan finds a declaration exactly at line index 9)
and whose brace-depth profile keeps that declaration open through line 19 and
closes it at line 20 - so that its span is exactly [10, 20] - every target
line in [10, 20] returns that method (its name, its normalized signature, and
start line 10), while target line 21 returns nothing. -/
theorem c1_locator_containment (lines : List Line) (d : DeclInfo)
    (hlen : 20 ≤ lines.length)
    (hdet : ∀ i, i < lines.length → i ≠ 9 → detectDecl lines i = none)
    (hd : detectDecl lines 9 = some d)
    (hopen : ∀ m, 10 ≤ m → m ≤ 19 →
      braceDelta lines 9 + (countCh 123 (lines.getD 9 []) : Int) ≤ braceDelta lines m)
    (hclose : braceDelta lines 20 <
      braceDelta lines 9 + (countCh 123 (lines.getD 9 []) : Int)) :
    (∀ t, 10 ≤ t → t ≤ 20 →
      (find_method_at_line lines t).map (fun r => (r.name, r.signature, r.start_line)) =
        some (d.name, d.name ++ 40 :: (d.params ++ [41]), 10)) ∧
    find_method_at_line lines 21 = none := by
  have h9len : (9 : Nat) < lines.length := by omega
  have hc9 : countCh 125 (lines.getD 9 []) = 0 := by
    have h10 : braceDelta lines 9 + (countCh 123 (lines.getD 9 []) : Int) ≤
        braceDelta lines (9 + 1) := hopen 10 (by omega) (by omega)
    rw [braceDelta_succ lines 9] at h10
    omega
  constructor
  · intro t ht1 ht2
    have hstart : find_method_at_line lines t =
        scanLoopAux lines t (lines.drop 0) 0 (braceDelta lines 0) [] := rfl
    have hph1 := scanLoopAux_advance_le lines t 0 9 [] (by omega) (by omega)
      (fun m h1 h2 => hdet m (by omega) (by omega))
      (fun f s2 hst => by simp at hst)
    rcases eq_or_lt_of_le ht1 with h10 | h11
    · rw [hstart, hph1,
        scanLoopAux_step_ret lines t 9 (braceDelta lines 9) [] _ h9len
          (scanStep_push_hit lines t (lines.getD 9 []) 9 (braceDelta lines 9) [] d hd hc9
            (by omega))]
      rfl
    · rw [hstart, hph1,
        scanLoopAux_step_cont lines t 9 (braceDelta lines 9) [] _ _ h9len
          (scanStep_push lines t (lines.getD 9 []) 9 (braceDelta lines 9) [] d hd hc9
            (by omega)),
        ← braceDelta_succ lines 9]
      by_cases h19 : t ≤ 19
      · have hadv := scanLoopAux_advance_le lines t (9 + 1) (t - 1)
          [⟨d.name, d.name ++ 40 :: (d.params ++ [41]), 9 + 1,
            braceDelta lines 9 + (countCh 123 (lines.getD 9 []) : Int)⟩]
          (by omega) (by omega)
          (fun m h1 h2 => hdet m (by omega) (by omega))
          (fun f s2 hst m hm1 hm2 => by
            obtain ⟨he1, he2⟩ := List.cons.inj hst
            subst he1
            exact ⟨hopen m (by omega) (by omega), by omega⟩)
        rw [hadv]
        have hte : t - 1 + 1 = t := by omega
        have hnp : (⟨d.name, d.name ++ 40 :: (d.params ++ [41]), 9 + 1,
            braceDelta lines 9 + (countCh 123 (lines.getD 9 []) : Int)⟩ :
              MethodFrame).brace_depth_at_start ≤
            braceDelta lines (t - 1) + (countCh 123 (lines.getD (t - 1) []) : Int)
              - (countCh 125 (lines.getD (t - 1) []) : Int) := by
          have hx := hopen t (by omega) (by omega)
          rw [← hte] at hx
          rw [braceDelta_succ lines (t - 1)] at hx
          exact hx
        rw [scanLoopAux_step_ret lines t (t - 1) (braceDelta lines (t - 1)) _ _ (by omega)
          (scanStep_quiet_hit lines t (lines.getD (t - 1) []) (t - 1)
            (braceDelta lines (t - 1))
            ⟨d.name, d.name ++ 40 :: (d.params ++ [41]), 9 + 1,
              braceDelta lines 9 + (countCh 123 (lines.getD 9 []) : Int)⟩ []
            (hdet (t - 1) (by omega) (by omega)) hnp hte)]
        rfl
      · have ht20 : t = 20 := by omega
        subst ht20
        have hadv := scanLoopAux_advance_le lines 20 (9 + 1) 19
          [⟨d.name, d.name ++ 40 :: (d.params ++ [41]), 9 + 1,
            braceDelta lines 9 + (countCh 123 (lines.getD 9 []) : Int)⟩]
          (by omega) (by omega)
          (fun m h1 h2 => hdet m (by omega) (by omega))
          (fun f s2 hst m hm1 hm2 => by
            obtain ⟨he1, he2⟩ := List.cons.inj hst
            subst he1
            exact ⟨hopen m (by omega) (by omega), by omega⟩)
        rw [hadv]
        have hpop : braceDelta lines 19 + (countCh 123 (lines.getD 19 []) : Int)
            - (countCh 125 (lines.getD 19 []) : Int) <
            (⟨d.name, d.name ++ 40 :: (d.params ++ [41]), 9 + 1,
              braceDelta lines 9 + (countCh 123 (lines.getD 9 []) : Int)⟩ :
                MethodFrame).brace_depth_at_start := by
          have hx : braceDelta lines (19 + 1) <
              braceDelta lines 9 + (countCh 123 (lines.getD 9 []) : Int) := hclose
          rw [braceDelta_succ lines 19] at hx
          exact hx
        rw [scanLoopAux_step_ret lines 20 19 (braceDelta lines 19) _ _ (by omega)
          (scanStep_pop_found lines 20 (lines.getD 19 []) 19 (braceDelta lines 19)
            ⟨d.name, d.name ++ 40 :: (d.params ++ [41]), 9 + 1,
              braceDelta lines 9 + (countCh 123 (lines.getD 9 []) : Int)⟩ []
            (hdet 19 (by omega) (by omega)) hpop
            (by show (9 : Nat) + 1 ≤ 20; omega) (by omega))]
        rfl
  · have hstart : find_method_at_line lines 21 =
        scanLoopAux lines 21 (lines.drop 0) 0 (braceDelta lines 0) [] := rfl
    have hph1 := scanLoopAux_advance_le lines 21 0 9 [] (by omega) (by omega)
      (fun m h1 h2 => hdet m (by omega) (by omega))
      (fun f s2 hst => by simp at hst)
    rw [hstart, hph1,
      scanLoopAux_step_cont lines 21 9 (braceDelta lines 9) [] _ _ h9len
        (scanStep_push lines 21 (lines.getD 9 []) 9 (braceDelta lines 9) [] d hd hc9
          (by omega)),
      ← braceDelta_succ lines 9]
    have hadv := scanLoopAux_advance_le lines 21 (9 + 1) 19
      [⟨d.name, d.name ++ 40 :: (d.params ++ [41]), 9 + 1,
        braceDelta lines 9 + (countCh 123 (lines.getD 9 []) : Int)⟩]
      (by omega) (by omega)
      (fun m h1 h2 => hdet m (by omega) (by omega))
      (fun f s2 hst m hm1 hm2 => by
        obtain ⟨he1, he2⟩ := List.cons.inj hst
        subst he1
        exact ⟨hopen m (by omega) (by omega), by omega⟩)
    rw [hadv]
    have hpop : braceDelta lines 19 + (countCh 123 (lines.getD 19 []) : Int)
        - (countCh 125 (lines.getD 19 []) : Int) <
        (⟨d.name, d.name ++ 40 :: (d.params ++ [41]), 9 + 1,
          braceDelta lines 9 + (countCh 123 (lines.getD 9 []) : Int)⟩ :
            MethodFrame).brace_depth_at_start := by
      have hx : braceDelta lines (19 + 1) <
          braceDelta lines 9 + (countCh 123 (lines.getD 9 []) : Int) := hclose
      rw [braceDelta_succ lines 19] at hx
      exact hx
    rw [scanLoopAux_step_cont lines 21 19 (braceDelta lines 19) _ _ _ (by omega)
      (scanStep_pop_out lines 21 (lines.getD 19 []) 19 (braceDelta lines 19)
        ⟨d.name, d.name ++ 40 :: (d.params ++ [41]), 9 + 1,
          braceDelta lines 9 + (countCh 123 (lines.getD 9 []) : Int)⟩
        (hdet 19 (by omega) (by omega)) hpop
        (by rintro ⟨hx1, hx2⟩; omega)),
      ← braceDelta_succ lines 19]
    have hadv2 := scanLoopAux_advance_le lines 21 (19 + 1) lines.length [] (by omega)
      (by omega)
      (fun m h1 h2 => hdet m (by omega) (by omega))
      (fun f s2 hst => by simp at hst)
    rw [hadv2, List.drop_length]
    rfl

/-- Witness for C1: the synthetic file `file1` satisfies the single-method
hypotheses for the span [10, 20]; the theorem is applied at target 13 and 21. -/
theorem c1_locator_containment_witness :
    (find_method_at_line file1 13).map (fun r => (r.name, r.signature, r.start_line)) =
      some (S "bar", S "bar" ++ 40 :: (([] : Line) ++ [41]), 10) ∧
    find_method_at_line file1 21 = none := by
  have h := c1_locator_containment file1 ⟨S "bar", []⟩ (by decide)
    (by
      intro i h1 h2
      rw [show file1.length = 21 from rfl] at h1
      interval_cases i
      all_goals first
        | exact absurd rfl h2
        | decide)
    (by decide)
    (by
      intro m h1 h2
      interval_cases m <;> decide)
    (by decide)
  exact ⟨h.1 13 (by decide) (by decide), h.2⟩

theorem c2_reach_outer (lines : List Line) (dOut : DeclInfo) (ia ib target : Nat)
    (hab : ia < ib) (hlen : ib + 1 ≤ lines.length)
    (hdet : ∀ i, i < lines.length → i ≠ ia → i ≠ ib → detectDecl lines i = none)
    (hdOut : detectDecl lines ia = some dOut)
    (hOut : ∀ m, ia + 1 ≤ m → m ≤ ib →
      braceDelta lines ia + (countCh 123 (lines.getD ia []) : Int) ≤ braceDelta lines m)
    (htgt : ib < target) :
    find_method_at_line lines target =
      scanLoopAux lines target (lines.drop ib) ib (braceDelta lines ib)
        [⟨dOut.name, dOut.name ++ 40 :: (dOut.params ++ [41]), ia + 1,
          braceDelta lines ia + (countCh 123 (lines.getD ia []) : Int)⟩] := by
  have hiaLen : ia < lines.length := by omega
  have hcOut : countCh 125 (lines.getD ia []) = 0 := by
    have h1 : braceDelta lines ia + (countCh 123 (lines.getD ia []) : Int) ≤
        braceDelta lines (ia + 1) := hOut (ia + 1) (by omega) (by omega)
    rw [braceDelta_succ lines ia] at h1
    omega
  have hstart : find_method_at_line lines target =
      scanLoopAux lines target (lines.drop 0) 0 (braceDelta lines 0) [] := rfl
  have hph1 := scanLoopAux_advance_le lines target 0 ia [] (by omega) (by omega)
    (fun m h1 h2 => hdet m (by omega) (by omega) (by omega))
    (fun f s2 hst => by simp at hst)
  rw [hstart, hph1,
    scanLoopAux_step_cont lines target ia (braceDelta lines ia) [] _ _ hiaLen
      (scanStep_push lines target (lines.getD ia []) ia (braceDelta lines ia) [] dOut
        hdOut hcOut (by omega)),
    ← braceDelta_succ lines ia]
  exact scanLoopAux_advance_le lines target (ia + 1) ib
    [⟨dOut.name, dOut.name ++ 40 :: (dOut.params ++ [41]), ia + 1,
      braceDelta lines ia + (countCh 123 (lines.getD ia []) : Int)⟩]
    (by omega) (by omega)
    (fun m h1 h2 => hdet m (by omega) (by omega) (by omega))
    (fun f s2 hst m hm1 hm2 => by
      obtain ⟨he1, he2⟩ := List.cons.inj hst
      subst he1
      exact ⟨hOut m (by omega) (by omega), by omega⟩)

theorem c2_reach_inner (lines : List Line) (dOut dIn : DeclInfo) (ia ib target : Nat)
    (hab : ia < ib) (hlen : ib + 1 ≤ lines.length)
    (hdet : ∀ i, i < lines.length → i ≠ ia → i ≠ ib → detectDecl lines i = none)
    (hdOut : detectDecl lines ia = some dOut)
    (hdIn : detectDecl lines ib = some dIn)
    (hOut : ∀ m, ia + 1 ≤ m → m ≤ ib →
      braceDelta lines ia + (countCh 123 (lines.getD ia []) : Int) ≤ braceDelta lines m)
    (hcIn : countCh 125 (lines.getD ib []) = 0)
    (htgt : ib + 1 < target) :
    find_method_at_line lines target =
      scanLoopAux lines target (lines.drop (ib + 1)) (ib + 1) (braceDelta lines (ib + 1))
        [⟨dIn.name, dIn.name ++ 40 :: (dIn.params ++ [41]), ib + 1,
          braceDelta lines ib + (countCh 123 (lines.getD ib []) : Int)⟩,
         ⟨dOut.name, dOut.name ++ 40 :: (dOut.params ++ [41]), ia + 1,
          braceDelta lines ia + (countCh 123 (lines.getD ia []) : Int)⟩] := by
  rw [c2_reach_outer lines dOut ia ib target hab hlen hdet hdOut hOut (by omega),
    scanLoopAux_step_cont lines target ib (braceDelta lines ib) _ _ _ (by omega)
      (scanStep_push lines target (lines.getD ib []) ib (braceDelta lines ib)
        [⟨dOut.name, dOut.name ++ 40 :: (dOut.params ++ [41]), ia + 1,
          braceDelta lines ia + (countCh 123 (lines.getD ia []) : Int)⟩] dIn
        hdIn hcIn (by omega)),
    ← braceDelta_succ lines ib]

/-- C2 amended: for every file text in which the scanner confirms exactly two
declarations - an outer one at line `ia + 1` and an inner one at line
`ib + 1`, opened while the outer frame is still open - the innermost (most
recently opened) frame wins whenever the target line is reached during the
scan while the inner frame is open, and also when the inner frame's popped
span ends exactly at the target line; but when the scan ends with both frames
still open (the target lies beyond the last line), the leftover pass walks
the stack from its bottom and returns the OUTERMOST frame, whose start line
`ia + 1` does not exceed the target - not the innermost one. -/
theorem c2_innermost_amended (lines : List Line) (dOut dIn : DeclInfo) (ia ib : Nat)
    (hab : ia < ib) (hlen : ib + 1 ≤ lines.length)
    (hdet : ∀ i, i < lines.length → i ≠ ia → i ≠ ib → detectDecl lines i = none)
    (hdOut : detectDecl lines ia = some dOut)
    (hdIn : detectDecl lines ib = some dIn)
    (hOut : ∀ m, ia + 1 ≤ m → m ≤ ib →
      braceDelta lines ia + (countCh 123 (lines.getD ia []) : Int) ≤ braceDelta lines m) :
    (∀ t, ib + 1 ≤ t → t ≤ lines.length →
      (∀ m, ib + 1 ≤ m → m ≤ t →
        braceDelta lines ib + (countCh 123 (lines.getD ib []) : Int) ≤
          braceDelta lines m) →
      find_method_at_line lines t =
        some ⟨dIn.name, dIn.name ++ 40 :: (dIn.params ++ [41]), ib + 1, none⟩) ∧
    (∀ e, ib + 1 < e → e ≤ lines.length →
      (∀ m, ib + 1 ≤ m → m < e →
        braceDelta lines ib + (countCh 123 (lines.getD ib []) : Int) ≤
          braceDelta lines m) →
      braceDelta lines e <
        braceDelta lines ib + (countCh 123 (lines.getD ib []) : Int) →
      find_method_at_line lines e =
        some ⟨dIn.name, dIn.name ++ 40 :: (dIn.params ++ [41]), ib + 1, some e⟩) ∧
    (∀ t, lines.length < t →
      (∀ m, ib + 1 ≤ m → m ≤ lines.length →
        braceDelta lines ib + (countCh 123 (lines.getD ib []) : Int) ≤
          braceDelta lines m) →
      find_method_at_line lines t =
        some ⟨dOut.name, dOut.name ++ 40 :: (dOut.params ++ [41]), ia + 1, none⟩) := by
  refine ⟨?_, ?_, ?_⟩
  · intro t ht1 ht2 hIn
    have hcIn : countCh 125 (lines.getD ib []) = 0 := by
      have h1 : braceDelta lines ib + (countCh 123 (lines.getD ib []) : Int) ≤
          braceDelta lines (ib + 1) := hIn (ib + 1) (by omega) (by omega)
      rw [braceDelta_succ lines ib] at h1
      omega
    rcases eq_or_lt_of_le ht1 with he | hlt
    · rw [c2_reach_outer lines dOut ia ib t hab hlen hdet hdOut hOut (by omega),
        scanLoopAux_step_ret lines t ib (braceDelta lines ib) _ _ (by omega)
          (scanStep_push_hit lines t (lines.getD ib []) ib (braceDelta lines ib)
            [⟨dOut.name, dOut.name ++ 40 :: (dOut.params ++ [41]), ia + 1,
              braceDelta lines ia + (countCh 123 (lines.getD ia []) : Int)⟩] dIn
            hdIn hcIn he)]
    · rw [c2_reach_inner lines dOut dIn ia ib t hab hlen hdet hdOut hdIn hOut hcIn hlt]
      have hadv := scanLoopAux_advance_le lines t (ib + 1) (t - 1)
        [⟨dIn.name, dIn.name ++ 40 :: (dIn.params ++ [41]), ib + 1,
          braceDelta lines ib + (countCh 123 (lines.getD ib []) : Int)⟩,
         ⟨dOut.name, dOut.name ++ 40 :: (dOut.params ++ [41]), ia + 1,
          braceDelta lines ia + (countCh 123 (lines.getD ia []) : Int)⟩]
        (by omega) (by omega)
        (fun m h1 h2 => hdet m (by omega) (by omega) (by omega))
        (fun f s2 hst m hm1 hm2 => by
          obtain ⟨he1, he2⟩ := List.cons.inj hst
          subst he1
          exact ⟨hIn m (by omega) (by omega), by omega⟩)
      rw [hadv]
      have hte : t - 1 + 1 = t := by omega
      have hnp : (⟨dIn.name, dIn.name ++ 40 :: (dIn.params ++ [41]), ib + 1,
          braceDelta lines ib + (countCh 123 (lines.getD ib []) : Int)⟩ :
            MethodFrame).brace_depth_at_start ≤
          braceDelta lines (t - 1) + (countCh 123 (lines.getD (t - 1) []) : Int)
            - (countCh 125 (lines.getD (t - 1) []) : Int) := by
        have hx := hIn t (by omega) (by omega)
        rw [← hte] at hx
        rw [braceDelta_succ lines (t - 1)] at hx
        exact hx
      rw [scanLoopAux_step_ret lines t (t - 1) (braceDelta lines (t - 1)) _ _ (by omega)
        (scanStep_quiet_hit lines t (lines.getD (t - 1) []) (t - 1)
          (braceDelta lines (t - 1))
          ⟨dIn.name, dIn.name ++ 40 :: (dIn.params ++ [41]), ib + 1,
            braceDelta lines ib + (countCh 123 (lines.getD ib []) : Int)⟩
          [⟨dOut.name, dOut.name ++ 40 :: (dOut.params ++ [41]), ia + 1,
            braceDelta lines ia + (countCh 123 (lines.getD ia []) : Int)⟩]
          (hdet (t - 1) (by omega) (by omega) (by omega)) hnp hte)]
  · intro e he1 he2 hIn hpop
    have hcIn : countCh 125 (lines.getD ib []) = 0 := by
      have h1 : braceDelta lines ib + (countCh 123 (lines.getD ib []) : Int) ≤
          braceDelta lines (ib + 1) := hIn (ib + 1) (by omega) (by omega)
      rw [braceDelta_succ lines ib] at h1
      omega
    rw [c2_reach_inner lines dOut dIn ia ib e hab hlen hdet hdOut hdIn hOut hcIn (by omega)]
    have hadv := scanLoopAux_advance_le lines e (ib + 1) (e - 1)
      [⟨dIn.name, dIn.name ++ 40 :: (dIn.params ++ [41]), ib + 1,
        braceDelta lines ib + (countCh 123 (lines.getD ib []) : Int)⟩,
       ⟨dOut.name, dOut.name ++ 40 :: (dOut.params ++ [41]), ia + 1,
        braceDelta lines ia + (countCh 123 (lines.getD ia []) : Int)⟩]
      (by omega) (by omega)
      (fun m h1 h2 => hdet m (by omega) (by omega) (by omega))
      (fun f s2 hst m hm1 hm2 => by
        obtain ⟨he3, he4⟩ := List.cons.inj hst
        subst he3
        exact ⟨hIn m (by omega) (by omega), by omega⟩)
    rw [hadv]
    have hee : e - 1 + 1 = e := by omega
    have hp2 : braceDelta lines (e - 1) + (countCh 123 (lines.getD (e - 1) []) : Int)
        - (countCh 125 (lines.getD (e - 1) []) : Int) <
        (⟨dIn.name, dIn.name ++ 40 :: (dIn.params ++ [41]), ib + 1,
          braceDelta lines ib + (countCh 123 (lines.getD ib []) : Int)⟩ :
            MethodFrame).brace_depth_at_start := by
      have hx := hpop
      rw [← hee] at hx
      rw [braceDelta_succ lines (e - 1)] at hx
      exact hx
    rw [scanLoopAux_step_ret lines e (e - 1) (braceDelta lines (e - 1)) _ _ (by omega)
      (scanStep_pop_found lines e (lines.getD (e - 1) []) (e - 1)
        (braceDelta lines (e - 1))
        ⟨dIn.name, dIn.name ++ 40 :: (dIn.params ++ [41]), ib + 1,
          braceDelta lines ib + (countCh 123 (lines.getD ib []) : Int)⟩
        [⟨dOut.name, dOut.name ++ 40 :: (dOut.params ++ [41]), ia + 1,
          braceDelta lines ia + (countCh 123 (lines.getD ia []) : Int)⟩]
        (hdet (e - 1) (by omega) (by omega) (by omega)) hp2
        (by show ib + 1 ≤ e; omega) (by omega)),
      hee]
  · intro t ht hIn
    have hcIn : countCh 125 (lines.getD ib []) = 0 := by
      have h1 : braceDelta lines ib + (countCh 123 (lines.getD ib []) : Int) ≤
          braceDelta lines (ib + 1) := hIn (ib + 1) (by omega) (by omega)
      rw [braceDelta_succ lines ib] at h1
      omega
    rw [c2_reach_inner lines dOut dIn ia ib t hab hlen hdet hdOut hdIn hOut hcIn (by omega)]
    have hadv := scanLoopAux_advance_le lines t (ib + 1) lines.length
      [⟨dIn.name, dIn.name ++ 40 :: (dIn.params ++ [41]), ib + 1,
        braceDelta lines ib + (countCh 123 (lines.getD ib []) : Int)⟩,
       ⟨dOut.name, dOut.name ++ 40 :: (dOut.params ++ [41]), ia + 1,
        braceDelta lines ia + (countCh 123 (lines.getD ia []) : Int)⟩]
      (by omega) (by omega)
      (fun m h1 h2 => hdet m (by omega) (by omega) (by omega))
      (fun f s2 hst m hm1 hm2 => by
        obtain ⟨he3, he4⟩ := List.cons.inj hst
        subst he3
        exact ⟨hIn m (by omega) (by omega), by omega⟩)
    rw [hadv, List.drop_length]
    exact scanLeftover_two t _ _ (by show ia + 1 ≤ t; omega)

/-- Witness for the amended C2: `fileC2open` satisfies the nested-declaration
hypotheses with the outer frame opened at line 1 and the inner at line 2; the
theorem resolves target 3 (reached during the scan) to the inner frame and
target 5 (beyond the last line, both frames still open) to the outer frame. -/
theorem c2_innermost_amended_witness :
    find_method_at_line fileC2open 3 =
      some ⟨S "inner", S "inner" ++ 40 :: (([] : Line) ++ [41]), 2, none⟩ ∧
    find_method_at_line fileC2open 5 =
      some ⟨S "outer", S "outer" ++ 40 :: (([] : Line) ++ [41]), 1, none⟩ := by
  have h := c2_innermost_amended fileC2open ⟨S "outer", []⟩ ⟨S "inner", []⟩ 0 1
    (by decide) (by decide)
    (by
      intro i h1 h2 h3
      rw [show fileC2open.length = 3 from rfl] at h1
      interval_cases i
      · exact absurd rfl h2
      · exact absurd rfl h3
      · decide)
    (by decide) (by decide)
    (by
      intro m h1 h2
      have hm : m = 1 := by omega
      subst hm
      decide)
  exact ⟨h.1 3 (by decide) (by decide)
      (by
        intro m h1 h2
        rcases (by omega : m = 2 ∨ m = 3) with hm | hm <;> subst hm <;> decide),
    h.2.2 5 (by decide)
      (by
        intro m h1 h2
        rw [show fileC2open.length = 3 from rfl] at h2
        rcases (by omega : m = 2 ∨ m = 3) with hm | hm <;> subst hm <;> decide)⟩

theorem foldl_preserve {α β : Type} (step : β → α → β) (P : β → Prop)
    (hstep : ∀ b a, P b → P (step b a)) :
    ∀ (l : List α) (b : β), P b → P (l.foldl step b) := by
  intro l
  induction l with
  | nil => intro b h; exact h
  | cons a l ih => intro b h; exact ih _ (hstep b a h)

theorem setFixedIfNone_buggy (v : Nat) (r : MethodRecord) :
    (setFixedIfNone v r).line_start_buggy = r.line_start_buggy := by
  unfold setFixedIfNone
  split <;> rfl

theorem setBuggyIfNone_fixed (v : Nat) (r : MethodRecord) :
    (setBuggyIfNone v r).line_start_fixed = r.line_start_fixed := by
  unfold setBuggyIfNone
  split <;> rfl

theorem setBuggyIfNone_isSome (v : Nat) (r : MethodRecord) :
    (setBuggyIfNone v r).line_start_buggy.isSome = true := by
  unfold setBuggyIfNone
  split
  · simp
  case isFalse h =>
    cases ho : r.line_start_buggy with
    | none => exact absurd (by rw [ho]; rfl) h
    | some v2 => rfl

theorem stepFixed_allBuggyNone (fileP cls : Line) (fixedFile : List Line)
    (m : List (Line × MethodRecord)) (ln : Nat)
    (hall : ∀ p ∈ m, p.2.line_start_buggy = none) :
    ∀ p ∈ stepFixed fileP cls fixedFile m ln, p.2.line_start_buggy = none := by
  simp only [stepFixed]
  split
  · exact hall
  case _ mi _ =>
    intro p hp
    obtain ⟨q, hq, hor⟩ := mem_mfUpdate _ _ _ p hp
    have hq2 : q.2.line_start_buggy = none := by
      revert hq
      split
      · intro hq
        rcases List.mem_append.mp hq with hv | hv
        · exact hall q hv
        · simp at hv
          rw [hv]
      · intro hq
        exact hall q hq
    rcases hor with hv | hv
    · rw [hv]
      exact hq2
    · rw [hv]
      rw [setFixedIfNone_buggy]
      exact hq2

theorem stepBuggy_allSome (fileP cls : Line) (buggyFile : List Line)
    (m : List (Line × MethodRecord)) (ln : Nat)
    (hall : ∀ p ∈ m, p.2.line_start_buggy.isSome = true) :
    ∀ p ∈ stepBuggy fileP cls buggyFile m ln, p.2.line_start_buggy.isSome = true := by
  simp only [stepBuggy]
  split
  · exact hall
  case _ mi _ =>
    split
    · intro p hp
      rcases List.mem_append.mp hp with hv | hv
      · exact hall p hv
      · simp at hv
        rw [hv]
        rfl
    · intro p hp
      obtain ⟨q, hq, hor⟩ := mem_mfUpdate _ _ _ p hp
      rcases hor with hv | hv
      · rw [hv]
        exact hall q hq
      · rw [hv]
        exact setBuggyIfNone_isSome _ _

theorem stepBuggy_allFixedNone (fileP cls : Line) (buggyFile : List Line)
    (m : List (Line × MethodRecord)) (ln : Nat)
    (hall : ∀ p ∈ m, p.2.line_start_fixed = none) :
    ∀ p ∈ stepBuggy fileP cls buggyFile m ln, p.2.line_start_fixed = none := by
  simp only [stepBuggy]
  split
  · exact hall
  case _ mi _ =>
    split
    · intro p hp
      rcases List.mem_append.mp hp with hv | hv
      · exact hall p hv
      · simp at hv
        rw [hv]
    · intro p hp
      obtain ⟨q, hq, hor⟩ := mem_mfUpdate _ _ _ p hp
      rcases hor with hv | hv
      · rw [hv]
        exact hall q hq
      · rw [hv]
        rw [setBuggyIfNone_fixed]
        exact hall q hq

theorem backfillBuggy_of_none (buggyFile : List Line) (r : MethodRecord)
    (h : r.line_start_buggy = none) :
    (backfillBuggy buggyFile r).line_start_buggy =
      (find_method_by_signature buggyFile r.method_name r.method).map
        SigMatch.start_line := by
  unfold backfillBuggy
  rw [if_pos (by rw [h]; rfl)]
  split
  case _ b heq => rw [heq]; rfl
  case _ heq => rw [heq, h]; rfl

theorem backfillBuggy_of_some (buggyFile : List Line) (r : MethodRecord)
    (h : r.line_start_buggy.isSome = true) :
    backfillBuggy buggyFile r = r := by
  unfold backfillBuggy
  obtain ⟨v, hv⟩ := Option.isSome_iff_exists.mp h
  rw [if_neg (by rw [hv]; simp)]

theorem backfillBuggy_fixed (buggyFile : List Line) (r : MethodRecord) :
    (backfillBuggy buggyFile r).line_start_fixed = r.line_start_fixed := by
  unfold backfillBuggy
  split
  · split <;> rfl
  · rfl

theorem backfillBuggy_method_name (buggyFile : List Line) (r : MethodRecord) :
    (backfillBuggy buggyFile r).method_name = r.method_name := by
  unfold backfillBuggy
  split
  · split <;> rfl
  · rfl

theorem backfillFixed_of_none (fixedFile : List Line) (r : MethodRecord)
    (h : r.line_start_fixed = none) :
    (backfillFixed fixedFile r).line_start_fixed =
      (find_method_by_signature fixedFile r.method_name r.method).map
        SigMatch.start_line := by
  unfold backfillFixed
  rw [if_pos (by rw [h]; rfl)]
  split
  case _ b heq => rw [heq]; rfl
  case _ heq => rw [heq, h]; rfl

theorem backfillFixed_of_some (fixedFile : List Line) (r : MethodRecord)
    (h : r.line_start_fixed.isSome = true) :
    backfillFixed fixedFile r = r := by
  unfold backfillFixed
  obtain ⟨v, hv⟩ := Option.isSome_iff_exists.mp h
  rw [if_neg (by rw [hv]; simp)]

theorem backfillFixed_buggy (fixedFile : List Line) (r : MethodRecord) :
    (backfillFixed fixedFile r).line_start_buggy = r.line_start_buggy := by
  unfold backfillFixed
  split
  · split <;> rfl
  · rfl

theorem backfillFixed_method_name (fixedFile : List Line) (r : MethodRecord) :
    (backfillFixed fixedFile r).method_name = r.method_name := by
  unfold backfillFixed
  split
  · split <;> rfl
  · rfl

/-- C4 amended: for every file pair, when the diff parse records no changed
line on the before side (a pure addition), every emitted record has
`line_start_fixed` populated and `line_start_buggy` equal to exactly the
signature-matcher backfill result on the before-file - populated when the
backfill finds a match (as when the method also exists there) and left empty
exactly when it fails (as for a purely added method); the symmetric statement
holds when the after side records no changed line (a pure deletion). -/
theorem c4_pure_addition_amended (diffOutput : Line) (buggyFile fixedFile : List Line)
    (fileP cls : Line) (r : MethodRecord)
    (hr : r ∈ extract_modified_methods diffOutput buggyFile fixedFile fileP cls) :
    ((parseDiff (splitOnCh 10 diffOutput)).buggy = [] →
      r.line_start_fixed.isSome = true ∧
      r.line_start_buggy =
        (find_method_by_signature buggyFile r.method_name r.method).map
          SigMatch.start_line) ∧
    ((parseDiff (splitOnCh 10 diffOutput)).fixed = [] →
      r.line_start_buggy.isSome = true ∧
      r.line_start_fixed =
        (find_method_by_signature fixedFile r.method_name r.method).map
          SigMatch.start_line) := by
  simp only [extract_modified_methods] at hr
  constructor
  · intro hb
    revert hr
    split
    · intro hr
      simp at hr
    · intro hr
      rw [hb] at hr
      simp only [toSortedSet, List.foldr_nil, List.foldl_nil] at hr
      obtain ⟨p, hp, rfl⟩ := List.mem_map.mp hr
      obtain ⟨q, hq, rfl⟩ := List.mem_map.mp hp
      have hfix : q.2.line_start_fixed.isSome = true :=
        foldl_preserve (stepFixed fileP cls fixedFile)
          (fun m => ∀ p2 ∈ m, p2.2.line_start_fixed.isSome = true)
          (fun m ln h => stepFixed_allSome fileP cls fixedFile m ln h)
          _ [] (by simp) q hq
      have hbug : q.2.line_start_buggy = none :=
        foldl_preserve (stepFixed fileP cls fixedFile)
          (fun m => ∀ p2 ∈ m, p2.2.line_start_buggy = none)
          (fun m ln h => stepFixed_allBuggyNone fileP cls fixedFile m ln h)
          _ [] (by simp) q hq
      have h1 : (backfillBuggy buggyFile q.2).line_start_fixed.isSome = true := by
        rw [backfillBuggy_fixed]
        exact hfix
      have h2 : (backfill buggyFile fixedFile q).2 = backfillBuggy buggyFile q.2 :=
        backfillFixed_of_some fixedFile _ h1
      rw [h2, backfillBuggy_fixed, backfillBuggy_method_name, backfillBuggy_method,
        backfillBuggy_of_none buggyFile q.2 hbug]
      exact ⟨hfix, rfl⟩
  · intro hf
    revert hr
    split
    · intro hr
      simp at hr
    · intro hr
      rw [hf] at hr
      simp only [toSortedSet, List.foldr_nil, List.foldl_nil] at hr
      obtain ⟨p, hp, rfl⟩ := List.mem_map.mp hr
      obtain ⟨q, hq, rfl⟩ := List.mem_map.mp hp
      have hbug : q.2.line_start_buggy.isSome = true :=
        foldl_preserve (stepBuggy fileP cls buggyFile)
          (fun m => ∀ p2 ∈ m, p2.2.line_start_buggy.isSome = true)
          (fun m ln h => stepBuggy_allSome fileP cls buggyFile m ln h)
          _ [] (by simp) q hq
      have hfix : q.2.line_start_fixed = none :=
        foldl_preserve (stepBuggy fileP cls buggyFile)
          (fun m => ∀ p2 ∈ m, p2.2.line_start_fixed = none)
          (fun m ln h => stepBuggy_allFixedNone fileP cls buggyFile m ln h)
          _ [] (by simp) q hq
      have h2 : (backfill buggyFile fixedFile q).2 = backfillFixed fixedFile q.2 := by
        show backfillFixed fixedFile (backfillBuggy buggyFile q.2) = _
        rw [backfillBuggy_of_some buggyFile q.2 hbug]
      rw [h2, backfillFixed_buggy, backfillFixed_method_name,
        backfillFixed_of_none fixedFile q.2 hfix]
      refine ⟨hbug, ?_⟩
      have hm : (backfillFixed fixedFile q.2).method = q.2.method := by
        unfold backfillFixed
        split
        · split <;> rfl
        · rfl
      rw [hm]

/-- Witness for the amended C4: applied to the purely added method `h` of
`fixed4b` (before side left empty because the backfill fails) and to the
purely deleted method `k` of `buggy4c` (after side left empty). -/
theorem c4_pure_addition_amended_witness :
    ((⟨S "F.java", S "F", S "h()", S "h", none, some 4⟩ :
        MethodRecord).line_start_fixed.isSome = true ∧
      (⟨S "F.java", S "F", S "h()", S "h", none, some 4⟩ :
        MethodRecord).line_start_buggy =
        (find_method_by_signature buggy4b (S "h") (S "h()")).map SigMatch.start_line) ∧
    ((⟨S "F.java", S "F", S "k()", S "k", some 4, none⟩ :
        MethodRecord).line_start_buggy.isSome = true ∧
      (⟨S "F.java", S "F", S "k()", S "k", some 4, none⟩ :
        MethodRecord).line_start_fixed =
        (find_method_by_signature fixed4c (S "k") (S "k()")).map SigMatch.start_line) :=
  ⟨(c4_pure_addition_amended diff4b buggy4b fixed4b (S "F.java") (S "F")
      ⟨S "F.java", S "F", S "h()", S "h", none, some 4⟩ (by decide)).1 (by decide),
   (c4_pure_addition_amended diff4c buggy4c fixed4c (S "F.java") (S "F")
      ⟨S "F.java", S "F", S "k()", S "k", some 4, none⟩ (by decide)).2 (by decide)⟩
